import Mathlib

/-!
Verification of the date-parsing and recency-filtering core of the
WebScrapper crawlers (bankinform.py, rb.py, plusworld.py, mckinseyy.py,
bankcnews.py).  Python strings are modelled as Lean strings, regular
expression searches as an explicit leftmost greedy backtracking matcher,
datetime values as civil (year, month, day, second-of-day) records, and
raised-and-caught Python exceptions as an explicit result type.
-/

/-- Result of a Python computation that may raise: either a value or a raised
exception (the spiders catch these with a bare except and return None). -/
inductive PyRes (α : Type) where
  | ok (v : α) : PyRes α
  | exc : PyRes α
deriving DecidableEq, Repr

/-- Map over the value of a PyRes, propagating a raised exception. -/
def PyRes.map {α β : Type} (f : α → β) : PyRes α → PyRes β
  | .ok v => .ok (f v)
  | .exc => .exc

/-- ASCII decimal digit, as matched by the digit class in the spiders'
patterns (all inputs of interest use ASCII digits). -/
def isDigitCh (c : Char) : Bool :=
  48 ≤ c.toNat && c.toNat ≤ 57

/-- Python regex whitespace (the backslash-s class for str patterns):
ASCII whitespace plus the Unicode whitespace code points. -/
def isPyWs (c : Char) : Bool :=
  (9 ≤ c.toNat && c.toNat ≤ 13) || (28 ≤ c.toNat && c.toNat ≤ 31) ||
  c.toNat = 32 || c.toNat = 133 || c.toNat = 160 || c.toNat = 5760 ||
  (8192 ≤ c.toNat && c.toNat ≤ 8202) || c.toNat = 8232 || c.toNat = 8233 ||
  c.toNat = 8239 || c.toNat = 8287 || c.toNat = 12288

/-- Lowercase Cyrillic letter class of the pattern used by
parse_russian_date in bankinform.py and rb.py: the range from CYRILLIC SMALL
A (U+0430) to CYRILLIC SMALL YA (U+044F) together with SMALL IO (U+0451). -/
def isCyrLower (c : Char) : Bool :=
  (1072 ≤ c.toNat && c.toNat ≤ 1103) || c.toNat = 1105

/-- Python str.lower restricted to the characters relevant here: ASCII
letters and the basic Cyrillic block (U+0410..U+042F and U+0401). -/
def pyLowerChar (c : Char) : Char :=
  if 65 ≤ c.toNat && c.toNat ≤ 90 then Char.ofNat (c.toNat + 32)
  else if 1040 ≤ c.toNat && c.toNat ≤ 1071 then Char.ofNat (c.toNat + 32)
  else if c.toNat = 1025 then Char.ofNat 1105
  else c

/-- Case-insensitive version of the Cyrillic class, as used by the
clean_date_text patterns that are searched with re.IGNORECASE. -/
def isCyrLowerIC (c : Char) : Bool :=
  isCyrLower c || isCyrLower (pyLowerChar c)

/-- Decorative icon glyphs removed by bankinform.py clean_date_text:
ALARM CLOCK (U+23F0), CLOCK FACE THREE OCLOCK (U+1F552), CALENDAR (U+1F4C5). -/
def isIconCh (c : Char) : Bool :=
  c.toNat = 9200 || c.toNat = 128338 || c.toNat = 128197

/-- Numeric value of a digit string, as computed by Python int() on a match
of a digit-run pattern. -/
def natOfDigits (ds : List Char) : Nat :=
  ds.foldl (fun a c => 10 * a + (c.toNat - 48)) 0

/-- Python substring containment (the in operator on str). -/
def containsSub (p : List Char) : List Char → Bool
  | [] => decide (p = [])
  | c :: t => p.isPrefixOf (c :: t) || containsSub p t

/-- First maximal run of digits in a string: models taking element 0 of
re.findall of a digit-run pattern. -/
def firstNumRun : List Char → Option (List Char)
  | [] => none
  | c :: t => if isDigitCh c then some (c :: t.takeWhile isDigitCh) else firstNumRun t

/-- Worker for whitespace collapapsing; the flag records whether the previous
character was whitespace (already replaced by one space). -/
def collapseWsAux : Bool → List Char → List Char
  | _, [] => []
  | prevWs, c :: t =>
      if isPyWs c then
        if prevWs then collapseWsAux true t else ' ' :: collapseWsAux true t
      else c :: collapseWsAux false t

/-- Python re.sub replacing every whitespace run by a single ASCII space. -/
def collapseWs (s : List Char) : List Char :=
  collapseWsAux false s

/-- Python str.strip: drop leading and trailing whitespace. -/
def pyStrip (s : List Char) : List Char :=
  ((s.dropWhile isPyWs).reverse.dropWhile isPyWs).reverse

/-- Python re.sub deleting every icon glyph occurrence. -/
def stripIcons (s : List Char) : List Char :=
  s.filter (fun c => !(isIconCh c))

/-- Gregorian leap year, as used by Python datetime. -/
def isLeapYear (y : Nat) : Bool :=
  y % 4 = 0 && (y % 100 ≠ 0 || y % 400 = 0)

/-- Length of a month, as used by Python datetime. -/
def daysInMonth (y m : Nat) : Nat :=
  if m = 2 then (if isLeapYear y then 29 else 28)
  else if m = 4 || m = 6 || m = 9 || m = 11 then 30
  else 31

/-- Python datetime constructor validity: year in MINYEAR..MAXYEAR, month
1..12, day 1..month length.  Outside this range datetime raises ValueError. -/
def datetimeOk (y m d : Nat) : Bool :=
  1 ≤ y && y ≤ 9999 && 1 ≤ m && m ≤ 12 && 1 ≤ d && d ≤ daysInMonth y m

/-- A Python naive datetime value: civil date plus second of day.  The
spiders never use sub-second precision in a way the claims depend on. -/
structure PyDT where
  year : Nat
  month : Nat
  day : Nat
  secs : Nat
deriving DecidableEq, Repr

/-- Python datetime(year, month, day): the constructed midnight value, or a
raised ValueError for invalid components. -/
def pyDatetime (y m d : Nat) : PyRes PyDT :=
  if datetimeOk y m d then .ok ⟨y, m, d, 0⟩ else .exc

/-- Days from 1970-01-01 of a civil date (Gregorian, proleptic); the
standard days-from-civil algorithm, matching the ordinal arithmetic Python
datetime uses for subtraction. -/
def daysFromCivil (y : Int) (m d : Nat) : Int :=
  let yv : Int := if m ≤ 2 then y - 1 else y
  let era : Int := Int.ediv yv 400
  let yoe : Nat := (yv - era * 400).toNat
  let mp : Nat := if 2 < m then m - 3 else m + 9
  let doy : Nat := (153 * mp + 2) / 5 + d - 1
  let doe : Nat := yoe * 365 + yoe / 4 - yoe / 100 + doy
  era * 146097 + (doe : Int) - 719468

/-- Civil date from days since 1970-01-01 (inverse direction of
daysFromCivil, same standard algorithm). -/
def civilFromDays (z0 : Int) : Int × Nat × Nat :=
  let z : Int := z0 + 719468
  let era : Int := Int.ediv z 146097
  let doe : Nat := (z - era * 146097).toNat
  let yoe : Nat := (doe - doe / 1460 + doe / 36524 - doe / 146096) / 365
  let y : Int := (yoe : Int) + era * 400
  let doy : Nat := doe - (365 * yoe + yoe / 4 - yoe / 100)
  let mp : Nat := (5 * doy + 2) / 153
  let d : Nat := doy - (153 * mp + 2) / 5 + 1
  let m : Nat := if mp < 10 then mp + 3 else mp - 9
  (if m ≤ 2 then y + 1 else y, m, d)

/-- Total seconds of a datetime value relative to the 1970-01-01 epoch. -/
def toSecs (dt : PyDT) : Int :=
  daysFromCivil (dt.year : Int) dt.month dt.day * 86400 + (dt.secs : Int)

/-- Smallest representable day number (ordinal of 0001-01-01). -/
def minDayNum : Int := daysFromCivil 1 1 1

/-- Largest representable day number (ordinal of 9999-12-31). -/
def maxDayNum : Int := daysFromCivil 9999 12 31

/-- Build a datetime from a day number and a second of day. -/
def pyDTOfDays (dn : Int) (s : Nat) : PyDT :=
  ⟨(civilFromDays dn).1.toNat, (civilFromDays dn).2.1, (civilFromDays dn).2.2, s⟩

/-- Python datetime minus a timedelta of k seconds: computed through the
ordinal, raising OverflowError when the result leaves MINYEAR..MAXYEAR. -/
def pySub (dt : PyDT) (k : Int) : PyRes PyDT :=
  let t : Int := toSecs dt - k
  let dn : Int := Int.ediv t 86400
  if minDayNum ≤ dn && dn ≤ maxDayNum then
    .ok (pyDTOfDays dn (Int.emod t 86400).toNat)
  else .exc

/-- Python datetime comparison (less or equal): lexicographic on the civil
fields and the time of day, exactly as CPython compares datetimes. -/
def pyLe (a b : PyDT) : Bool :=
  a.year < b.year ||
  (a.year = b.year && (a.month < b.month ||
    (a.month = b.month && (a.day < b.day ||
      (a.day = b.day && a.secs ≤ b.secs)))))

/-- Left-pad the decimal representation of a number with zeros. -/
def padNum (w n : Nat) : String :=
  String.mk (List.replicate (w - (Nat.repr n).length) '0') ++ Nat.repr n

/-- Python datetime.isoformat() with whole-second precision. -/
def pyIsoformat (dt : PyDT) : String :=
  padNum 4 dt.year ++ "-" ++ padNum 2 dt.month ++ "-" ++ padNum 2 dt.day ++
  "T" ++ padNum 2 (dt.secs / 3600) ++ ":" ++ padNum 2 (dt.secs / 60 % 60) ++
  ":" ++ padNum 2 (dt.secs % 60)

/-!
A small regular expression engine covering exactly the constructs the
spiders' patterns use: character classes with a counted or unbounded greedy
repetition, single literal characters, and a literal alternation.  Matching
is leftmost (positions tried left to right) and greedy with backtracking
(repetition counts tried longest first), which is the Python re strategy for
these patterns.
-/

/-- One regex element: either a character class with a repetition range
(upper bound none means unbounded, the plus operator), or an alternation of
literal words (optionally case-insensitive). -/
inductive RElem where
  | cls (p : Char → Bool) (lo : Nat) (hi : Option Nat) : RElem
  | alt (ws : List (List Char)) (ic : Bool) : RElem

/-- Whether the first k characters of s exist and all satisfy p. -/
def okRun (p : Char → Bool) (k : Nat) (s : List Char) : Bool :=
  decide (k ≤ s.length) && (s.take k).all p

/-- Repetition counts to try for a class element, longest first: down from
the stated upper bound, or from the maximal run for an unbounded element. -/
def countList (p : Char → Bool) (lo : Nat) (hi : Option Nat) (s : List Char) : List Nat :=
  let m : Nat := match hi with
    | some h => h
    | none => (s.takeWhile p).length
  if m < lo then [] else (List.range (m + 1 - lo)).map (fun i => m - i)

/-- Try each repetition count in order; on success of the continuation the
whole match succeeds with that count's run recorded. -/
def firstSomeCounts (p : Char → Bool) (s : List Char)
    (cont : List Char → List Char → Option (List (List Char))) :
    List Nat → Option (List (List Char))
  | [] => none
  | k :: ks =>
      match (if okRun p k s then cont (s.take k) (s.drop k) else none) with
      | some r => some r
      | none => firstSomeCounts p s cont ks

/-- Whether word w matches the front of s, case-insensitively when ic. -/
def prefixMatch (ic : Bool) (w s : List Char) : Bool :=
  decide (w.length ≤ s.length) &&
  decide ((if ic then (s.take w.length).map pyLowerChar else s.take w.length) = w)

/-- Try each alternative literal in order, recording the consumed slice. -/
def firstAlt (ic : Bool) (s : List Char)
    (cont : List Char → List Char → Option (List (List Char))) :
    List (List Char) → Option (List (List Char))
  | [] => none
  | w :: ws =>
      match (if prefixMatch ic w s then cont (s.take w.length) (s.drop w.length) else none) with
      | some r => some r
      | none => firstAlt ic s cont ws

/-- Match a whole element list at the start of s, returning the list of
consumed runs (one per element). -/
def matchElems : List RElem → List Char → Option (List (List Char))
  | [], _ => some []
  | .cls p lo hi :: es, s =>
      firstSomeCounts p s
        (fun run rest => (matchElems es rest).map (fun rs => run :: rs))
        (countList p lo hi s)
  | .alt ws ic :: es, s =>
      firstAlt ic s
        (fun w rest => (matchElems es rest).map (fun rs => w :: rs)) ws

/-- Leftmost search: try to match at each position from the left; models
re.search for the patterns at hand. -/
def reSearch (es : List RElem) : List Char → Option (List (List Char))
  | [] => matchElems es []
  | c :: t =>
      match matchElems es (c :: t) with
      | some r => some r
      | none => reSearch es t

/-!
The concrete patterns of the spiders, compiled by hand into element lists.
-/

/-- Pattern of parse_russian_date in bankinform.py and rb.py (identical in
both files): a 1-2 digit group, whitespace, a lowercase Cyrillic group,
whitespace, a 4 digit group.  Searched without IGNORECASE. -/
def rusTriplePat : List RElem :=
  [.cls isDigitCh 1 (some 2), .cls isPyWs 1 none, .cls isCyrLower 1 none,
   .cls isPyWs 1 none, .cls isDigitCh 4 (some 4)]

/-- Dot pattern of parse_standard_date in bankinform.py: day, dot, month,
dot, 4 digit year. -/
def dotPat : List RElem :=
  [.cls isDigitCh 1 (some 2), .cls (fun c => c = '.') 1 (some 1),
   .cls isDigitCh 1 (some 2), .cls (fun c => c = '.') 1 (some 1),
   .cls isDigitCh 4 (some 4)]

/-- Dash pattern of parse_standard_date in bankinform.py: 4 digit year,
dash, month, dash, day. -/
def dashPat : List RElem :=
  [.cls isDigitCh 4 (some 4), .cls (fun c => c = '-') 1 (some 1),
   .cls isDigitCh 1 (some 2), .cls (fun c => c = '-') 1 (some 1),
   .cls isDigitCh 1 (some 2)]

/-- Slash pattern of clean_date_text in bankinform.py: day, slash, month,
slash, 4 digit year. -/
def slashPat : List RElem :=
  [.cls isDigitCh 1 (some 2), .cls (fun c => c = '/') 1 (some 1),
   .cls isDigitCh 1 (some 2), .cls (fun c => c = '/') 1 (some 1),
   .cls isDigitCh 4 (some 4)]

/-- Case-insensitive day-month-year shape of clean_date_text. -/
def rusTriplePatIC : List RElem :=
  [.cls isDigitCh 1 (some 2), .cls isPyWs 1 none, .cls isCyrLowerIC 1 none,
   .cls isPyWs 1 none, .cls isDigitCh 4 (some 4)]

/-- Case-insensitive day-month shape (year omitted) of clean_date_text. -/
def rusPairPatIC : List RElem :=
  [.cls isDigitCh 1 (some 2), .cls isPyWs 1 none, .cls isCyrLowerIC 1 none]

/-- Unit stems of the relative-date alternation of clean_date_text, in the
order written in the source. -/
def relStems : List (List Char) :=
  ["час".data, "день".data, "дня".data, "дней".data,
   "минут".data, "недел".data]

/-- Relative-date shape of clean_date_text: an integer, whitespace, and one
of the unit stems. -/
def relPatIC : List RElem :=
  [.cls isDigitCh 1 none, .cls isPyWs 1 none, .alt relStems true]

/-- Month name to month number mapping of parse_russian_date, in source
order (bankinform.py and rb.py; the genitive Russian month names). -/
def month_mapping : List (String × Nat) :=
  [("января", 1), ("февраля", 2), ("марта", 3), ("апреля", 4),
   ("мая", 5), ("июня", 6), ("июля", 7), ("августа", 8),
   ("сентября", 9), ("октября", 10), ("ноября", 11), ("декабря", 12)]

namespace Bankinform

/-- Sanitization part of clean_date_text in bankinform.py (lines 209-216):
strip the raw text, delete the icon glyphs, collapse whitespace runs to a
single space.  Note the strip happens before icon removal. -/
def sanitizeText (s : List Char) : List Char :=
  collapseWs (stripIcons (pyStrip s))

/-- Sanitization step as a function on possibly-empty strings: the
falsy-input early return of clean_date_text (absent for empty input). -/
def sanitize_step (s : String) : Option String :=
  if s = "" then none else some (String.mk (sanitizeText s.data))

/-- Validation part of clean_date_text in bankinform.py (lines 218-232):
accept when one of the six date shapes occurs in the text, searched with
IGNORECASE. -/
def looksLikeDate (t : List Char) : Bool :=
  (reSearch rusTriplePatIC t).isSome || (reSearch dotPat t).isSome ||
  (reSearch slashPat t).isSome || (reSearch dashPat t).isSome ||
  (reSearch rusPairPatIC t).isSome || (reSearch relPatIC t).isSome

/-- clean_date_text of bankinform.py: sanitize, then return the cleaned
text when it looks like a date and None otherwise. -/
def clean_date_text (s : String) : Option String :=
  if s = "" then none
  else
    let t := sanitizeText s.data
    if looksLikeDate t then some (String.mk t) else none

/-- Group processing of parse_russian_date in bankinform.py (identical in
rb.py): day and year by int() on the first and third group, the month by
lowercasing the second group and looking it up in the month mapping, then
datetime construction (which may raise ValueError). -/
def russianOfGroups (g1 g2 g3 : List Char) : PyRes (Option PyDT) :=
  let day := natOfDigits g1
  let month_ru := String.mk (g2.map pyLowerChar)
  let year := natOfDigits g3
  match List.lookup month_ru month_mapping with
  | some m => (pyDatetime year m day).map some
  | none => .ok none

/-- Try block of parse_russian_date in bankinform.py (identical in rb.py):
search the day-month-year triple and process the three groups. -/
def russianBody (s : String) : PyRes (Option PyDT) :=
  match reSearch rusTriplePat s.data with
  | some [g1, _, g2, _, g3] => russianOfGroups g1 g2 g3
  | _ => .ok none

/-- parse_russian_date of bankinform.py and rb.py: the try body with any
raised exception caught and turned into None. -/
def parse_russian_date (s : String) : Option PyDT :=
  match russianBody s with
  | .ok r => r
  | .exc => none

/-- Try block of parse_standard_date in bankinform.py.  A ValueError raised
while building the date from the dot pattern is caught by the function's
single except handler, so it does not fall through to the dash pattern. -/
def standardBody (s : String) : PyRes (Option PyDT) :=
  match reSearch dotPat s.data with
  | some [a, _, b, _, y] =>
      (pyDatetime (natOfDigits y) (natOfDigits b) (natOfDigits a)).map some
  | _ =>
      match reSearch dashPat s.data with
      | some [y, _, a, _, b] =>
          (pyDatetime (natOfDigits y) (natOfDigits a) (natOfDigits b)).map some
      | _ => .ok none

/-- parse_standard_date of bankinform.py with its except handler. -/
def parse_standard_date (s : String) : Option PyDT :=
  match standardBody s with
  | .ok r => r
  | .exc => none

/-- Try block of parse_relative_date in bankinform.py: first integer of the
text, then the unit-stem substring tests in source order (day stems, hour
stems, minute stem, week stem), subtracting from the current clock value.
The subtraction may raise OverflowError for a huge amount. -/
def relativeBody (now : PyDT) (s : String) : PyRes (Option PyDT) :=
  match firstNumRun s.data with
  | some ns =>
      let amount := natOfDigits ns
      if containsSub "день".data s.data || containsSub "дня".data s.data ||
         containsSub "дней".data s.data then
        (pySub now ((amount : Int) * 86400)).map some
      else if containsSub "час".data s.data || containsSub "часа".data s.data ||
              containsSub "часов".data s.data then
        (pySub now ((amount : Int) * 3600)).map some
      else if containsSub "минут".data s.data then
        (pySub now ((amount : Int) * 60)).map some
      else if containsSub "недел".data s.data then
        (pySub now ((amount : Int) * 604800)).map some
      else .ok none
  | none => .ok none

/-- parse_relative_date of bankinform.py with its except handler. -/
def parse_relative_date (now : PyDT) (s : String) : Option PyDT :=
  match relativeBody now s with
  | .ok r => r
  | .exc => none

/-- parse_date_text of bankinform.py: clean and validate, then try the
Russian-month parser, the relative parser and the standard numeric parser
in that order, returning the first success. -/
def parse_date_text (now : PyDT) (s : String) : Option PyDT :=
  if s = "" then none
  else
    match clean_date_text s with
    | none => none
    | some c =>
        match parse_russian_date c with
        | some d => some d
        | none =>
            match parse_relative_date now c with
            | some d => some d
            | none => parse_standard_date c

/-- Acceptance condition of parse_article_list in bankinform.py line 46
(and, with the same wording, plusworld.py line 78): fetch the article when
its date is unknown or at least the threshold. -/
def accept_candidate (d : Option PyDT) (thr : PyDT) : Bool :=
  match d with
  | none => true
  | some dt => pyLe thr dt

end Bankinform

namespace Rb

/-- parse_russian_date of rb.py is character for character the function of
bankinform.py, so it is shared. -/
def parse_russian_date (s : String) : Option PyDT :=
  Bankinform.parse_russian_date s

/-- Acceptance condition of parse_search_results in rb.py line 52: the item
is taken only when a date was parsed and it is at least the threshold; an
item whose date is unknown is not accepted by this test. -/
def accept_candidate (d : Option PyDT) (thr : PyDT) : Bool :=
  match d with
  | none => false
  | some dt => pyLe thr dt

end Rb

namespace Plusworld

/-! Modelling note.  The plusworld.py file in this snapshot stores all its
Cyrillic literals double-encoded (UTF-8 bytes re-decoded as mac-roman), so
the month and unit-stem literals are strings such as the one below instead
of Russian words, and the Cyrillic character class of its patterns became
the class of the characters EN DASH, INFINITY to EM DASH, E-GRAVE, EM DASH,
E-DIAERESIS, whose middle is a reversed range (U+221E to U+2014).  Python
re raises error (bad character range) when compiling such a class. -/

/-- clean_date_text of plusworld.py.  For empty input the falsy early
return yields None; for any other input the first entry of date_patterns is
searched, and compiling its corrupted character class raises re.error,
which no handler in the function or its callers catches. -/
def clean_date_text (s : String) : PyRes (Option String) :=
  if s = "" then .ok none else .exc

/-- parse_russian_date of plusworld.py: its pattern contains the same
corrupted class, but here the re.error is raised inside the try block and
the except handler returns None, for every input. -/
def parse_russian_date (_ : String) : Option PyDT :=
  none

/-- Try block of parse_relative_date in plusworld.py: same structure as the
bankinform.py function, but the unit-stem literals are the double-encoded
strings actually present in the file. -/
def relativeBody (now : PyDT) (s : String) : PyRes (Option PyDT) :=
  match firstNumRun s.data with
  | some ns =>
      let amount := natOfDigits ns
      if containsSub "–¥–µ–Ω—å".data s.data || containsSub "–¥–Ω—è".data s.data ||
         containsSub "–¥–Ω–µ–π".data s.data then
        (pySub now ((amount : Int) * 86400)).map some
      else if containsSub "—á–∞—Å".data s.data || containsSub "—á–∞—Å–∞".data s.data ||
              containsSub "—á–∞—Å–æ–≤".data s.data then
        (pySub now ((amount : Int) * 3600)).map some
      else if containsSub "–º–∏–Ω—É—Ç".data s.data then
        (pySub now ((amount : Int) * 60)).map some
      else if containsSub "–Ω–µ–¥–µ–ª".data s.data then
        (pySub now ((amount : Int) * 604800)).map some
      else .ok none
  | none => .ok none

/-- parse_relative_date of plusworld.py with its except handler. -/
def parse_relative_date (now : PyDT) (s : String) : Option PyDT :=
  match relativeBody now s with
  | .ok r => r
  | .exc => none

/-- parse_date_text of plusworld.py: after the clean step the dispatcher
tries only the Russian-month parser and then the relative parser; there is
no numeric fallback in this file.  The uncaught re.error from the clean
step propagates. -/
def parse_date_text (now : PyDT) (s : String) : PyRes (Option PyDT) :=
  if s = "" then .ok none
  else
    match clean_date_text s with
    | .exc => .exc
    | .ok none => .ok none
    | .ok (some c) =>
        match parse_russian_date c with
        | some d => .ok (some d)
        | none =>
            match parse_relative_date now c with
            | some d => .ok (some d)
            | none => .ok none

end Plusworld

/-- A Python value appearing in an emitted item: a string or None. -/
inductive PyVal where
  | str (s : String) : PyVal
  | none : PyVal
deriving DecidableEq, Repr

/-- Serialization of the article date field used by bankinform.py,
plusworld.py and rb.py: isoformat when present, None otherwise. -/
def articleDateField (d : Option PyDT) : PyVal :=
  match d with
  | Option.none => PyVal.none
  | Option.some dt => PyVal.str (pyIsoformat dt)

/-- Item yielded by parse_article of bankinform.py (lines 285-292). -/
def bankinformItem (title url descr : String) (d : Option PyDT) (now : PyDT) :
    List (String × PyVal) :=
  [("title", .str title), ("url", .str url),
   ("search_term", .str "bankinform-fintech"), ("description", .str descr),
   ("article_date", articleDateField d),
   ("scraped_at", .str (pyIsoformat now))]

/-- Item yielded by parse_article of plusworld.py (lines 374-381). -/
def plusworldItem (title url term descr : String) (d : Option PyDT) (now : PyDT) :
    List (String × PyVal) :=
  [("title", .str title), ("url", .str url), ("search_term", .str term),
   ("description", .str descr), ("article_date", articleDateField d),
   ("scraped_at", .str (pyIsoformat now))]

/-- Item yielded by parse_article of rb.py (lines 171-177): no scraped_at
field. -/
def rbItem (title url term descr : String) (d : Option PyDT) :
    List (String × PyVal) :=
  [("title", .str title), ("url", .str url), ("search_term", .str term),
   ("description", .str descr), ("article_date", articleDateField d)]

/-- Item yielded by parse_article of bankcnews.py (lines 144-149): no
article_date and no scraped_at fields. -/
def bankcnewsItem (title url term descr : String) : List (String × PyVal) :=
  [("title", .str title), ("url", .str url), ("search_term", .str term),
   ("description", .str descr)]

/-- Item yielded by parse of mckinseyy.py (lines 36-40): only title, url
and description. -/
def mckinseyItem (title url descr : String) : List (String × PyVal) :=
  [("title", .str title), ("url", .str url), ("description", .str descr)]

/-- Field names of the record shape stated in the specification. -/
def specRecordFields : List String :=
  ["title", "url", "search_term", "description", "article_date", "scraped_at"]

/-!
Lemmas about the character classes and about deterministic runs of the
matcher on strings of a known shape.
-/

theorem digit_not_ws {c : Char} (h : isDigitCh c = true) : isPyWs c = false := by
  simp [isDigitCh] at h
  simp [isPyWs]
  omega

theorem cyr_not_ws {c : Char} (h : isCyrLower c = true) : isPyWs c = false := by
  simp [isCyrLower] at h
  simp [isPyWs]
  omega

theorem pyLowerChar_cyr {c : Char} (h : isCyrLower c = true) : pyLowerChar c = c := by
  simp [isCyrLower] at h
  have h1 : (65 ≤ c.toNat && c.toNat ≤ 90) = false := by simp; omega
  have h2 : (1040 ≤ c.toNat && c.toNat ≤ 1071) = false := by simp; omega
  have h3 : c.toNat ≠ 1025 := by omega
  simp [pyLowerChar, h1, h2, h3]

theorem map_pyLower_cyr {mm : List Char} (h : ∀ c ∈ mm, isCyrLower c = true) :
    mm.map pyLowerChar = mm := by
  induction mm with
  | nil => rfl
  | cons a t ih =>
      simp only [List.map_cons, pyLowerChar_cyr (h a (by simp)),
        ih (fun c hc => h c (by simp [hc]))]

theorem takeWhile_append_all {p : Char → Bool} {r t : List Char}
    (hr : ∀ c ∈ r, p c = true) :
    (r ++ t).takeWhile p = r ++ t.takeWhile p := by
  induction r with
  | nil => simp
  | cons a r ih =>
      have ha : p a = true := hr a (by simp)
      have ih2 := ih (fun c hc => hr c (by simp [hc]))
      simp only [List.cons_append, List.takeWhile_cons_of_pos ha, ih2]

theorem takeWhile_run {p : Char → Bool} {r : List Char} {x : Char} {t : List Char}
    (hr : ∀ c ∈ r, p c = true) (hx : p x = false) :
    (r ++ x :: t).takeWhile p = r := by
  rw [takeWhile_append_all hr, List.takeWhile_cons_of_neg (by simp [hx]),
    List.append_nil]

theorem okRun_append {p : Char → Bool} {r t : List Char}
    (hr : ∀ c ∈ r, p c = true) :
    okRun p r.length (r ++ t) = true := by
  unfold okRun
  rw [List.take_left]
  simp [List.all_eq_true, List.length_append]
  exact hr

theorem okRun_one {p : Char → Bool} {a : Char} {t : List Char} (h : p a = true) :
    okRun p 1 (a :: t) = true := by
  simp [okRun, h]

theorem firstSomeCounts_head_ok {p : Char → Bool} {s : List Char}
    {cont : List Char → List Char → Option (List (List Char))} {k : Nat}
    {ks : List Nat} {r : List (List Char)}
    (hk : okRun p k s = true) (hc : cont (s.take k) (s.drop k) = some r) :
    firstSomeCounts p s cont (k :: ks) = some r := by
  simp [firstSomeCounts, hk, hc]

theorem firstSomeCounts_head_fail {p : Char → Bool} {s : List Char}
    {cont : List Char → List Char → Option (List (List Char))} {k : Nat}
    {ks : List Nat} (hk : okRun p k s = false) :
    firstSomeCounts p s cont (k :: ks) = firstSomeCounts p s cont ks := by
  simp [firstSomeCounts, hk]

theorem countList_1_2 (p : Char → Bool) (s : List Char) :
    countList p 1 (some 2) s = [2, 1] := rfl

theorem countList_4_4 (p : Char → Bool) (s : List Char) :
    countList p 4 (some 4) s = [4] := rfl

theorem countList_1_1 (p : Char → Bool) (s : List Char) :
    countList p 1 (some 1) s = [1] := rfl

theorem countList_unbounded_head {p : Char → Bool} {s : List Char}
    (h1 : 1 ≤ (s.takeWhile p).length) :
    ∃ ks, countList p 1 none s = (s.takeWhile p).length :: ks := by
  generalize hm : (s.takeWhile p).length = m at *
  obtain ⟨mp, rfl⟩ : ∃ mp, m = mp + 1 := ⟨m - 1, by omega⟩
  refine ⟨(List.range mp).map (fun i => mp + 1 - (i + 1)), ?_⟩
  simp only [countList, hm]
  rw [if_neg (by omega)]
  simp [List.range_succ_eq_map, List.map_map, Function.comp]

theorem reSearch_of_matchElems_cons {es : List RElem} {a : Char} {t : List Char}
    {r : List (List Char)} (h : matchElems es (a :: t) = some r) :
    reSearch es (a :: t) = some r := by
  simp [reSearch, h]

theorem matchElems_day_cons {es : List RElem} {ds : List Char} {x : Char}
    {t : List Char} {rs : List (List Char)}
    (hd1 : ds ≠ []) (hd2 : ds.length ≤ 2) (hdd : ∀ c ∈ ds, isDigitCh c = true)
    (hx : isDigitCh x = false)
    (hrest : matchElems es (x :: t) = some rs) :
    matchElems (RElem.cls isDigitCh 1 (some 2) :: es) (ds ++ x :: t) =
      some (ds :: rs) := by
  obtain ⟨a, ds2, rfl⟩ : ∃ a ds2, ds = a :: ds2 := by
    cases ds with
    | nil => exact absurd rfl hd1
    | cons a t2 => exact ⟨a, t2, rfl⟩
  cases ds2 with
  | nil =>
      have ha : isDigitCh a = true := hdd a (by simp)
      have hfail : okRun isDigitCh 2 (a :: x :: t) = false := by
        simp [okRun, hx]
      simp only [matchElems, countList_1_2, List.cons_append, List.nil_append]
      rw [firstSomeCounts_head_fail hfail]
      refine firstSomeCounts_head_ok (okRun_one ha) ?_
      simp [hrest]
  | cons b ds3 =>
      cases ds3 with
      | nil =>
          have ha : isDigitCh a = true := hdd a (by simp)
          have hb : isDigitCh b = true := hdd b (by simp)
          have hok : okRun isDigitCh 2 (a :: b :: (x :: t)) = true := by
            simp [okRun, ha, hb]
          simp only [matchElems, countList_1_2, List.cons_append, List.nil_append]
          refine firstSomeCounts_head_ok hok ?_
          simp [hrest]
      | cons c ds4 => simp only [List.length_cons] at hd2; omega

theorem matchElems_digit4 {ys : List Char}
    (hy : ys.length = 4) (hyd : ∀ c ∈ ys, isDigitCh c = true) :
    matchElems [RElem.cls isDigitCh 4 (some 4)] ys = some [ys] := by
  have h1 : ys.take 4 = ys := by rw [← hy]; exact List.take_length ys
  have h2 : ys.drop 4 = [] := by rw [← hy]; exact List.drop_length ys
  have hok : okRun isDigitCh 4 ys = true := by
    simp [okRun, hy, h1, List.all_eq_true]
    exact hyd
  simp only [matchElems, countList_4_4]
  refine firstSomeCounts_head_ok hok ?_
  simp [h1, h2, matchElems]

theorem matchElems_ws_cons {es : List RElem} {x : Char}
    {t2 : List Char} {rs : List (List Char)}
    (hx : isPyWs x = false)
    (hrest : matchElems es (x :: t2) = some rs) :
    matchElems (RElem.cls isPyWs 1 none :: es) (' ' :: (x :: t2)) =
      some ([' '] :: rs) := by
  have htw : ((' ' :: (x :: t2)).takeWhile isPyWs).length = 1 := by
    rw [List.takeWhile_cons_of_pos (by decide), List.takeWhile_cons_of_neg (by simp [hx])]
    rfl
  obtain ⟨ks, hks⟩ := countList_unbounded_head (le_of_eq htw.symm)
  rw [htw] at hks
  simp only [matchElems, hks]
  refine firstSomeCounts_head_ok (okRun_one (by decide)) ?_
  simp [hrest]

theorem matchElems_cyrRun {es : List RElem} {mm : List Char} {x : Char}
    {t : List Char} {rs : List (List Char)}
    (hm1 : mm ≠ []) (hmc : ∀ c ∈ mm, isCyrLower c = true)
    (hx : isCyrLower x = false)
    (hrest : matchElems es (x :: t) = some rs) :
    matchElems (RElem.cls isCyrLower 1 none :: es) (mm ++ x :: t) =
      some (mm :: rs) := by
  have htw : ((mm ++ x :: t).takeWhile isCyrLower) = mm := takeWhile_run hmc hx
  have hlen : 1 ≤ ((mm ++ x :: t).takeWhile isCyrLower).length := by
    rw [htw]
    cases mm with
    | nil => exact absurd rfl hm1
    | cons a t2 => simp
  obtain ⟨ks, hks⟩ := countList_unbounded_head hlen
  rw [htw] at hks
  simp only [matchElems, hks]
  refine firstSomeCounts_head_ok (okRun_append hmc) ?_
  rw [List.take_left, List.drop_left]
  simp [hrest]

theorem data_mk (l : List Char) : (String.mk l).data = l := rfl

theorem mk_data (s : String) : String.mk s.data = s := rfl

theorem mem_of_lookup_eq_some {k : String} {v : Nat} :
    ∀ {l : List (String × Nat)}, List.lookup k l = some v → (k, v) ∈ l := by
  intro l
  induction l with
  | nil => intro h; simp [List.lookup] at h
  | cons p t ih =>
      intro h
      obtain ⟨a, b⟩ := p
      rw [List.lookup] at h
      cases hak : (k == a) with
      | true =>
          rw [hak] at h
          simp only [Option.some.injEq] at h
          have hka : k = a := by simpa using hak
          simp [hka, h]
      | false =>
          rw [hak] at h
          simp [ih h]

theorem month_key_props {k : String} {v : Nat}
    (h : List.lookup k month_mapping = some v) :
    k.data ≠ [] ∧ (∀ c ∈ k.data, isCyrLower c = true) := by
  have hm := mem_of_lookup_eq_some h
  simp only [month_mapping, List.mem_cons, List.not_mem_nil, or_false,
    Prod.mk.injEq] at hm
  rcases hm with ⟨rfl, _⟩ | ⟨rfl, _⟩ | ⟨rfl, _⟩ | ⟨rfl, _⟩ | ⟨rfl, _⟩ | ⟨rfl, _⟩ |
    ⟨rfl, _⟩ | ⟨rfl, _⟩ | ⟨rfl, _⟩ | ⟨rfl, _⟩ | ⟨rfl, _⟩ | ⟨rfl, _⟩ <;>
    exact ⟨by decide, by decide⟩

theorem matchElems_lit_cons {es : List RElem} {x : Char} {t : List Char}
    {rs : List (List Char)} (hrest : matchElems es t = some rs) :
    matchElems (RElem.cls (fun c => c = x) 1 (some 1) :: es) (x :: t) =
      some ([x] :: rs) := by
  simp only [matchElems, countList_1_1]
  refine firstSomeCounts_head_ok (okRun_one (by simp)) ?_
  simp [hrest]

theorem reSearch_rusTriple (ds mm ys : List Char)
    (hd1 : ds ≠ []) (hd2 : ds.length ≤ 2) (hdd : ∀ c ∈ ds, isDigitCh c = true)
    (hm1 : mm ≠ []) (hmc : ∀ c ∈ mm, isCyrLower c = true)
    (hy : ys.length = 4) (hyd : ∀ c ∈ ys, isDigitCh c = true) :
    reSearch rusTriplePat (ds ++ ' ' :: (mm ++ ' ' :: ys)) =
      some [ds, [' '], mm, [' '], ys] := by
  obtain ⟨y0, ys2, rfl⟩ : ∃ y0 ys2, ys = y0 :: ys2 := by
    cases ys with
    | nil => simp at hy
    | cons a t => exact ⟨a, t, rfl⟩
  obtain ⟨m0, mm2, rfl⟩ : ∃ m0 mm2, mm = m0 :: mm2 := by
    cases mm with
    | nil => exact absurd rfl hm1
    | cons a t => exact ⟨a, t, rfl⟩
  have hy0 : isDigitCh y0 = true := hyd y0 (by simp)
  have hm0 : isCyrLower m0 = true := hmc m0 (by simp)
  have h4 := matchElems_digit4 hy hyd
  have h3 : matchElems [RElem.cls isPyWs 1 none, RElem.cls isDigitCh 4 (some 4)]
      (' ' :: (y0 :: ys2)) = some [[' '], y0 :: ys2] :=
    matchElems_ws_cons (digit_not_ws hy0) h4
  have h2 : matchElems [RElem.cls isCyrLower 1 none, RElem.cls isPyWs 1 none,
      RElem.cls isDigitCh 4 (some 4)] ((m0 :: mm2) ++ ' ' :: (y0 :: ys2)) =
      some [m0 :: mm2, [' '], y0 :: ys2] :=
    matchElems_cyrRun hm1 hmc (by decide) h3
  have h1 : matchElems [RElem.cls isPyWs 1 none, RElem.cls isCyrLower 1 none,
      RElem.cls isPyWs 1 none, RElem.cls isDigitCh 4 (some 4)]
      (' ' :: (m0 :: (mm2 ++ ' ' :: (y0 :: ys2)))) =
      some [[' '], m0 :: mm2, [' '], y0 :: ys2] :=
    matchElems_ws_cons (cyr_not_ws hm0) h2
  have h0 : matchElems rusTriplePat
      (ds ++ ' ' :: ((m0 :: mm2) ++ ' ' :: (y0 :: ys2))) =
      some [ds, [' '], m0 :: mm2, [' '], y0 :: ys2] :=
    matchElems_day_cons hd1 hd2 hdd (by decide) h1
  obtain ⟨a, ds2, rfl⟩ : ∃ a ds2, ds = a :: ds2 := by
    cases ds with
    | nil => exact absurd rfl hd1
    | cons a t => exact ⟨a, t, rfl⟩
  rw [List.cons_append] at h0 ⊢
  exact reSearch_of_matchElems_cons h0

theorem reSearch_dotPat (as bs ys : List Char)
    (ha1 : as ≠ []) (ha2 : as.length ≤ 2) (had : ∀ c ∈ as, isDigitCh c = true)
    (hb1 : bs ≠ []) (hb2 : bs.length ≤ 2) (hbd : ∀ c ∈ bs, isDigitCh c = true)
    (hy : ys.length = 4) (hyd : ∀ c ∈ ys, isDigitCh c = true) :
    reSearch dotPat (as ++ '.' :: (bs ++ '.' :: ys)) =
      some [as, ['.'], bs, ['.'], ys] := by
  have h4 := matchElems_digit4 hy hyd
  have h3 : matchElems [RElem.cls (fun c => c = '.') 1 (some 1),
      RElem.cls isDigitCh 4 (some 4)] ('.' :: ys) = some [['.'], ys] :=
    matchElems_lit_cons h4
  have h2 : matchElems [RElem.cls isDigitCh 1 (some 2),
      RElem.cls (fun c => c = '.') 1 (some 1), RElem.cls isDigitCh 4 (some 4)]
      (bs ++ '.' :: ys) = some [bs, ['.'], ys] :=
    matchElems_day_cons hb1 hb2 hbd (by decide) h3
  have h1 : matchElems [RElem.cls (fun c => c = '.') 1 (some 1),
      RElem.cls isDigitCh 1 (some 2), RElem.cls (fun c => c = '.') 1 (some 1),
      RElem.cls isDigitCh 4 (some 4)] ('.' :: (bs ++ '.' :: ys)) =
      some [['.'], bs, ['.'], ys] :=
    matchElems_lit_cons h2
  have h0 : matchElems dotPat (as ++ '.' :: (bs ++ '.' :: ys)) =
      some [as, ['.'], bs, ['.'], ys] :=
    matchElems_day_cons ha1 ha2 had (by decide) h1
  obtain ⟨a, as2, has⟩ : ∃ a as2, as = a :: as2 := by
    cases as with
    | nil => exact absurd rfl ha1
    | cons a t => exact ⟨a, t, rfl⟩
  rw [has] at h0 ⊢
  rw [List.cons_append] at h0 ⊢
  exact reSearch_of_matchElems_cons h0

/-!
Behaviour of the Russian-month and numeric parsers on strings of exactly
the recognized shapes.
-/

theorem russianOfGroups_mapped {ds ys mmc : List Char} {mname : String} {mnum : Nat}
    (hcyr : ∀ c ∈ mmc, isCyrLower c = true) (hmm : mmc = mname.data)
    (hlook : List.lookup mname month_mapping = some mnum) :
    Bankinform.russianOfGroups ds mmc ys =
      (pyDatetime (natOfDigits ys) mnum (natOfDigits ds)).map some := by
  unfold Bankinform.russianOfGroups
  rw [map_pyLower_cyr hcyr, hmm, mk_data]
  simp only [hlook]

theorem russianOfGroups_unmapped {ds ys mmc : List Char}
    (hcyr : ∀ c ∈ mmc, isCyrLower c = true)
    (hlook : List.lookup (String.mk mmc) month_mapping = none) :
    Bankinform.russianOfGroups ds mmc ys = .ok none := by
  unfold Bankinform.russianOfGroups
  rw [map_pyLower_cyr hcyr]
  simp only [hlook]

theorem russianBody_shape (ds ys : List Char) (mname : String) (mnum : Nat)
    (hd1 : ds ≠ []) (hd2 : ds.length ≤ 2) (hdd : ∀ c ∈ ds, isDigitCh c = true)
    (hy : ys.length = 4) (hyd : ∀ c ∈ ys, isDigitCh c = true)
    (hlook : List.lookup mname month_mapping = some mnum) :
    Bankinform.russianBody (String.mk (ds ++ ' ' :: (mname.data ++ ' ' :: ys))) =
      (pyDatetime (natOfDigits ys) mnum (natOfDigits ds)).map some := by
  have hk := month_key_props hlook
  have hs := reSearch_rusTriple ds mname.data ys hd1 hd2 hdd hk.1 hk.2 hy hyd
  unfold Bankinform.russianBody
  rw [data_mk, hs]
  exact russianOfGroups_mapped hk.2 rfl hlook

theorem russianBody_shape_unmapped (ds ys mm : List Char)
    (hd1 : ds ≠ []) (hd2 : ds.length ≤ 2) (hdd : ∀ c ∈ ds, isDigitCh c = true)
    (hy : ys.length = 4) (hyd : ∀ c ∈ ys, isDigitCh c = true)
    (hm1 : mm ≠ []) (hmc : ∀ c ∈ mm, isCyrLower c = true)
    (hlook : List.lookup (String.mk mm) month_mapping = none) :
    Bankinform.russianBody (String.mk (ds ++ ' ' :: (mm ++ ' ' :: ys))) =
      .ok none := by
  have hs := reSearch_rusTriple ds mm ys hd1 hd2 hdd hm1 hmc hy hyd
  unfold Bankinform.russianBody
  rw [data_mk, hs]
  exact russianOfGroups_unmapped hmc hlook

theorem standardBody_dot_shape (as bs ys : List Char)
    (ha1 : as ≠ []) (ha2 : as.length ≤ 2) (had : ∀ c ∈ as, isDigitCh c = true)
    (hb1 : bs ≠ []) (hb2 : bs.length ≤ 2) (hbd : ∀ c ∈ bs, isDigitCh c = true)
    (hy : ys.length = 4) (hyd : ∀ c ∈ ys, isDigitCh c = true) :
    Bankinform.standardBody (String.mk (as ++ '.' :: (bs ++ '.' :: ys))) =
      (pyDatetime (natOfDigits ys) (natOfDigits bs) (natOfDigits as)).map some := by
  have hs := reSearch_dotPat as bs ys ha1 ha2 had hb1 hb2 hbd hy hyd
  unfold Bankinform.standardBody
  rw [data_mk, hs]

theorem parse_russian_of_body {s : String} {r : Option PyDT}
    (h : Bankinform.russianBody s = .ok r) :
    Bankinform.parse_russian_date s = r := by
  unfold Bankinform.parse_russian_date
  rw [h]

theorem parse_russian_of_body_exc {s : String}
    (h : Bankinform.russianBody s = .exc) :
    Bankinform.parse_russian_date s = none := by
  unfold Bankinform.parse_russian_date
  rw [h]

theorem parse_standard_of_body_exc {s : String}
    (h : Bankinform.standardBody s = .exc) :
    Bankinform.parse_standard_date s = none := by
  unfold Bankinform.parse_standard_date
  rw [h]

/-- C2: for every cleaned string of the shape day, whitespace, Cyrillic
month token, whitespace, four-digit year, where the month token is one of
the twelve mapped genitive names and the numbers form a valid calendar
date, parse_russian_date (shared by bankinform.py and rb.py) returns
exactly that calendar date, day and year taken literally and the month
through the mapping; and when the month token is a Cyrillic word outside
the mapping it returns no date. -/
theorem russian_month_parser_exact :
    (∀ (ds ys : List Char) (mname : String) (mnum : Nat),
        ds ≠ [] → ds.length ≤ 2 → (∀ c ∈ ds, isDigitCh c = true) →
        ys.length = 4 → (∀ c ∈ ys, isDigitCh c = true) →
        List.lookup mname month_mapping = some mnum →
        datetimeOk (natOfDigits ys) mnum (natOfDigits ds) = true →
        Bankinform.parse_russian_date
            (String.mk (ds ++ ' ' :: (mname.data ++ ' ' :: ys))) =
          some ⟨natOfDigits ys, mnum, natOfDigits ds, 0⟩) ∧
    (∀ (ds ys mm : List Char),
        ds ≠ [] → ds.length ≤ 2 → (∀ c ∈ ds, isDigitCh c = true) →
        ys.length = 4 → (∀ c ∈ ys, isDigitCh c = true) →
        mm ≠ [] → (∀ c ∈ mm, isCyrLower c = true) →
        List.lookup (String.mk mm) month_mapping = none →
        Bankinform.parse_russian_date
            (String.mk (ds ++ ' ' :: (mm ++ ' ' :: ys))) = none) := by
  constructor
  · intro ds ys mname mnum hd1 hd2 hdd hy hyd hlook hok
    have hb := russianBody_shape ds ys mname mnum hd1 hd2 hdd hy hyd hlook
    rw [pyDatetime, if_pos hok] at hb
    exact parse_russian_of_body hb
  · intro ds ys mm hd1 hd2 hdd hy hyd hm1 hmc hlook
    exact parse_russian_of_body
      (russianBody_shape_unmapped ds ys mm hd1 hd2 hdd hy hyd hm1 hmc hlook)

/-- Witness for C2: the parser maps the string 27 october-genitive 2025 to
the 27th of October 2025, and a Cyrillic non-month token to no date. -/
theorem russian_month_parser_exact_witness :
    Bankinform.parse_russian_date
        (String.mk (['2', '7'] ++ ' ' :: ("октября".data ++ ' ' :: ['2', '0', '2', '5']))) =
      some ⟨2025, 10, 27, 0⟩ ∧
    Bankinform.parse_russian_date
        (String.mk (['2', '7'] ++ ' ' :: ("тестабрь".data ++ ' ' :: ['2', '0', '2', '5']))) =
      none :=
  ⟨russian_month_parser_exact.1 ['2', '7'] ['2', '0', '2', '5'] "октября" 10
      (by decide) (by decide) (by decide) (by decide) (by decide) (by decide)
      (by decide),
   russian_month_parser_exact.2 ['2', '7'] ['2', '0', '2', '5'] "тестабрь".data
      (by decide) (by decide) (by decide) (by decide) (by decide) (by decide)
      (by decide) (by decide)⟩

/-- C3: when the extracted numbers of a Russian-month shaped string or of a
dotted numeric string do not form a valid calendar date, the strategy
yields no date: the ValueError raised by the datetime constructor is caught
by the except handler of the strategy (modelled by the exc branch), so no
rolled-over date is produced and nothing propagates. -/
theorem invalid_calendar_dates_rejected :
    (∀ (ds ys : List Char) (mname : String) (mnum : Nat),
        ds ≠ [] → ds.length ≤ 2 → (∀ c ∈ ds, isDigitCh c = true) →
        ys.length = 4 → (∀ c ∈ ys, isDigitCh c = true) →
        List.lookup mname month_mapping = some mnum →
        datetimeOk (natOfDigits ys) mnum (natOfDigits ds) = false →
        Bankinform.parse_russian_date
            (String.mk (ds ++ ' ' :: (mname.data ++ ' ' :: ys))) = none) ∧
    (∀ (as bs ys : List Char),
        as ≠ [] → as.length ≤ 2 → (∀ c ∈ as, isDigitCh c = true) →
        bs ≠ [] → bs.length ≤ 2 → (∀ c ∈ bs, isDigitCh c = true) →
        ys.length = 4 → (∀ c ∈ ys, isDigitCh c = true) →
        datetimeOk (natOfDigits ys) (natOfDigits bs) (natOfDigits as) = false →
        Bankinform.parse_standard_date
            (String.mk (as ++ '.' :: (bs ++ '.' :: ys))) = none) := by
  constructor
  · intro ds ys mname mnum hd1 hd2 hdd hy hyd hlook hbad
    have hb := russianBody_shape ds ys mname mnum hd1 hd2 hdd hy hyd hlook
    rw [pyDatetime, if_neg (by simp [hbad])] at hb
    exact parse_russian_of_body_exc hb
  · intro as bs ys ha1 ha2 had hb1 hb2 hbd hy hyd hbad
    have hb := standardBody_dot_shape as bs ys ha1 ha2 had hb1 hb2 hbd hy hyd
    rw [pyDatetime, if_neg (by simp [hbad])] at hb
    exact parse_standard_of_body_exc hb

/-- Witness for C3: 31 february-genitive 2025 and 31.02.2025 both yield no
date rather than a rolled-over March date. -/
theorem invalid_calendar_dates_rejected_witness :
    Bankinform.parse_russian_date
        (String.mk (['3', '1'] ++ ' ' :: ("февраля".data ++ ' ' :: ['2', '0', '2', '5']))) =
      none ∧
    Bankinform.parse_standard_date
        (String.mk (['3', '1'] ++ '.' :: (['0', '2'] ++ '.' :: ['2', '0', '2', '5']))) =
      none :=
  ⟨invalid_calendar_dates_rejected.1 ['3', '1'] ['2', '0', '2', '5'] "февраля" 2
      (by decide) (by decide) (by decide) (by decide) (by decide) (by decide)
      (by decide),
   invalid_calendar_dates_rejected.2 ['3', '1'] ['0', '2'] ['2', '0', '2', '5']
      (by decide) (by decide) (by decide) (by decide) (by decide) (by decide)
      (by decide) (by decide) (by decide)⟩

/-!
Arithmetic of the relative-date subtraction and behaviour of the relative
parser.
-/

theorem pySub_days (dt : PyDT) (n : Nat) (hs : dt.secs < 86400)
    (hlo : minDayNum ≤ daysFromCivil (dt.year : Int) dt.month dt.day - n)
    (hhi : daysFromCivil (dt.year : Int) dt.month dt.day - n ≤ maxDayNum) :
    pySub dt ((n : Int) * 86400) =
      .ok (pyDTOfDays (daysFromCivil (dt.year : Int) dt.month dt.day - n)
        dt.secs) := by
  have hsecs0 : (0 : Int) ≤ (dt.secs : Int) := Int.ofNat_nonneg dt.secs
  have hsecsLt : (dt.secs : Int) < 86400 := by exact_mod_cast hs
  have hre : toSecs dt - (n : Int) * 86400 =
      (dt.secs : Int) +
        (daysFromCivil (dt.year : Int) dt.month dt.day - n) * 86400 := by
    unfold toSecs
    ring
  have hdiv : Int.ediv (toSecs dt - (n : Int) * 86400) 86400 =
      daysFromCivil (dt.year : Int) dt.month dt.day - n := by
    rw [hre]
    have h86 : (86400 : Int) ≠ 0 := by norm_num
    calc Int.ediv ((dt.secs : Int) +
          (daysFromCivil (dt.year : Int) dt.month dt.day - n) * 86400) 86400
        = Int.ediv (dt.secs : Int) 86400 +
            (daysFromCivil (dt.year : Int) dt.month dt.day - n) :=
          Int.add_mul_ediv_right _ _ h86
      _ = daysFromCivil (dt.year : Int) dt.month dt.day - n := by
          have hz : Int.ediv (dt.secs : Int) 86400 = 0 :=
            Int.ediv_eq_zero_of_lt hsecs0 hsecsLt
          rw [hz]
          ring
  have hmod : Int.emod (toSecs dt - (n : Int) * 86400) 86400 = (dt.secs : Int) := by
    rw [hre]
    calc Int.emod ((dt.secs : Int) +
          (daysFromCivil (dt.year : Int) dt.month dt.day - n) * 86400) 86400
        = Int.emod (dt.secs : Int) 86400 := Int.add_mul_emod_self
      _ = (dt.secs : Int) := Int.emod_eq_of_lt hsecs0 hsecsLt
  unfold pySub
  simp only [hdiv, hmod]
  rw [if_pos (by simp [hlo, hhi])]
  simp

theorem firstNumRun_run {ns : List Char} {x : Char} {t : List Char}
    (hn1 : ns ≠ []) (hnd : ∀ c ∈ ns, isDigitCh c = true)
    (hx : isDigitCh x = false) :
    firstNumRun (ns ++ x :: t) = some ns := by
  obtain ⟨a, ns2, rfl⟩ : ∃ a ns2, ns = a :: ns2 := by
    cases ns with
    | nil => exact absurd rfl hn1
    | cons a t2 => exact ⟨a, t2, rfl⟩
  rw [List.cons_append]
  rw [firstNumRun, if_pos (hnd a (by simp))]
  rw [takeWhile_run (fun c hc => hnd c (by simp [hc])) hx]

theorem containsSub_cons_of_head_ne {p2 s : List Char} {c0 a : Char}
    (hne : (c0 == a) = false) :
    containsSub (c0 :: p2) (a :: s) = containsSub (c0 :: p2) s := by
  rw [containsSub]
  have : (c0 :: p2).isPrefixOf (a :: s) = false := by
    simp [List.isPrefixOf]
    intro h
    rw [h] at hne
    simp at hne
  rw [this]
  simp

theorem containsSub_digit_prefix {p2 ns t : List Char} {c0 : Char}
    (hnd : ∀ c ∈ ns, isDigitCh c = true) (hc0 : isDigitCh c0 = false) :
    containsSub (c0 :: p2) (ns ++ t) = containsSub (c0 :: p2) t := by
  induction ns with
  | nil => rfl
  | cons a nst ih =>
      have ha : isDigitCh a = true := hnd a (by simp)
      have hne : (c0 == a) = false := by
        simp only [beq_eq_false_iff_ne]
        intro h
        rw [h, ha] at hc0
        simp at hc0
      rw [List.cons_append, containsSub_cons_of_head_ne hne]
      exact ih (fun c hc => hnd c (by simp [hc]))

theorem containsSub_skip_digits {p : List Char} (ns t : List Char)
    (hnd : ∀ c ∈ ns, isDigitCh c = true)
    (hp : p.head?.any (fun c => !(isDigitCh c)) = true) :
    containsSub p (ns ++ t) = containsSub p t := by
  obtain ⟨c0, p2, rfl⟩ : ∃ c0 p2, p = c0 :: p2 := by
    cases p with
    | nil => simp at hp
    | cons a t2 => exact ⟨a, t2, rfl⟩
  have hc0 : isDigitCh c0 = false := by simpa using hp
  exact containsSub_digit_prefix hnd hc0

/-- Behaviour of the bankinform.py relative parser on a digit run followed
by the literal days-ago Russian suffix: the first integer is subtracted as
days, so the date component moves back by exactly that many days and the
time of day is unchanged.  (Supporting theorem for the relative-parser
contract; the overflow guard of the datetime subtraction is the stated
range hypothesis.) -/
theorem bankinform_relative_days_ago (now : PyDT) (ns : List Char)
    (hn1 : ns ≠ []) (hnd : ∀ c ∈ ns, isDigitCh c = true)
    (hsec : now.secs < 86400)
    (hlo : minDayNum ≤
      daysFromCivil (now.year : Int) now.month now.day - natOfDigits ns)
    (hhi : daysFromCivil (now.year : Int) now.month now.day - natOfDigits ns ≤
      maxDayNum) :
    Bankinform.parse_relative_date now
        (String.mk (ns ++ ' ' :: "дней назад".data)) =
      some (pyDTOfDays
        (daysFromCivil (now.year : Int) now.month now.day - natOfDigits ns)
        now.secs) := by
  have hfn : firstNumRun (ns ++ ' ' :: "дней назад".data) = some ns :=
    firstNumRun_run hn1 hnd (by decide)
  have hc1 : containsSub "день".data (ns ++ ' ' :: "дней назад".data) = false := by
    rw [containsSub_skip_digits ns (' ' :: "дней назад".data) hnd (by decide)]
    decide
  have hc2 : containsSub "дня".data (ns ++ ' ' :: "дней назад".data) = false := by
    rw [containsSub_skip_digits ns (' ' :: "дней назад".data) hnd (by decide)]
    decide
  have hc3 : containsSub "дней".data (ns ++ ' ' :: "дней назад".data) = true := by
    rw [containsSub_skip_digits ns (' ' :: "дней назад".data) hnd (by decide)]
    decide
  unfold Bankinform.parse_relative_date Bankinform.relativeBody
  rw [data_mk, hfn]
  simp only [hc1, hc2, hc3, Bool.false_or, Bool.or_true, if_true]
  rw [pySub_days now (natOfDigits ns) hsec hlo hhi]
  rfl

/-- C5: the relative parser of plusworld.py never recognizes real Russian
unit stems, because every Cyrillic literal in that file is stored
double-encoded (UTF-8 bytes re-decoded as mac-roman); the same input with
the file's own double-encoded day stem does parse, and the bankinform.py
copy of the function handles the real Russian text as the claim states. -/
theorem plusworld_relative_mojibake_stems :
    (∀ now : PyDT, Plusworld.parse_relative_date now "5 дней назад" = none) ∧
    Plusworld.parse_relative_date ⟨2025, 10, 12, 0⟩ "5 –¥–Ω–µ–π" =
      some ⟨2025, 10, 7, 0⟩ ∧
    Bankinform.parse_relative_date ⟨2025, 10, 12, 0⟩ "5 дней назад" =
      some ⟨2025, 10, 7, 0⟩ :=
  ⟨fun _ => rfl, by decide, by decide⟩

/-- C8: normalization is total and exception free in bankinform.py: every
exception raised inside a strategy body (modelled by the exc result) is
caught by that strategy's except handler and counts as its failure, the
dispatcher then proceeds to the next strategy, and malformed prose as well
as internally invalid dates come out as the explicit no-date result. -/
theorem normalize_total_exception_free :
    (∀ s : String, Bankinform.russianBody s = .exc →
        Bankinform.parse_russian_date s = none) ∧
    (∀ s : String, Bankinform.standardBody s = .exc →
        Bankinform.parse_standard_date s = none) ∧
    (∀ (now : PyDT) (s : String), Bankinform.relativeBody now s = .exc →
        Bankinform.parse_relative_date now s = none) ∧
    (∀ (now : PyDT) (s c : String),
        Bankinform.clean_date_text s = some c →
        Bankinform.russianBody c = .exc →
        Bankinform.parse_date_text now s =
          (match Bankinform.parse_relative_date now c with
            | some d => some d
            | none => Bankinform.parse_standard_date c)) ∧
    (∀ now : PyDT,
        Bankinform.parse_date_text now "Подпишитесь на рассылку" = none) ∧
    (∀ now : PyDT, Bankinform.parse_date_text now "31 февраля 2025" = none) := by
  refine ⟨?_, ?_, ?_, ?_, fun _ => rfl, fun _ => rfl⟩
  · intro s h
    exact parse_russian_of_body_exc h
  · intro s h
    exact parse_standard_of_body_exc h
  · intro now s h
    unfold Bankinform.parse_relative_date
    rw [h]
  · intro now s c hclean hexc
    have hs : s ≠ "" := by
      intro h
      rw [h] at hclean
      simp [Bankinform.clean_date_text] at hclean
    unfold Bankinform.parse_date_text
    rw [if_neg hs]
    simp only [hclean, parse_russian_of_body_exc hexc]

/-- Witness for C8: the string 31 february-genitive 2025 raises ValueError
inside the Russian-month strategy, the error is caught, and the dispatcher
proceeds to the relative and numeric strategies. -/
theorem normalize_total_exception_free_witness :
    Bankinform.russianBody "31 февраля 2025" = PyRes.exc ∧
    Bankinform.parse_date_text ⟨2025, 10, 12, 0⟩ "31 февраля 2025" =
      (match Bankinform.parse_relative_date ⟨2025, 10, 12, 0⟩ "31 февраля 2025" with
        | some d => some d
        | none => Bankinform.parse_standard_date "31 февраля 2025") :=
  ⟨by decide,
   normalize_total_exception_free.2.2.2.1 ⟨2025, 10, 12, 0⟩
     "31 февраля 2025" "31 февраля 2025" (by decide) (by decide)⟩

/-- C1 counterexample: the rb.py listing handler does not accept a
candidate with an unknown date, while the bankinform.py handler does, so
the crawlers do not all apply the same accept condition. -/
theorem rb_unknown_date_not_accepted :
    Rb.accept_candidate none ⟨2025, 9, 12, 0⟩ = false ∧
    Bankinform.accept_candidate none ⟨2025, 9, 12, 0⟩ = true := by
  decide

/-- C1 amended: the accept condition of the bankinform.py and plusworld.py
listing handlers holds exactly when the date is unknown or at least the
threshold, with the boundary inclusive; the rb.py handler instead accepts a
candidate only when its date parsed and is at least the threshold (also
inclusive), so unknown dates are not accepted there per item. -/
theorem recency_filter_amended :
    (∀ (d : Option PyDT) (thr : PyDT),
        Bankinform.accept_candidate d thr = true ↔
          d = none ∨ ∃ dt, d = some dt ∧ pyLe thr dt = true) ∧
    (∀ thr : PyDT, Bankinform.accept_candidate (some thr) thr = true) ∧
    (∀ (d : Option PyDT) (thr : PyDT),
        Rb.accept_candidate d thr = true ↔
          ∃ dt, d = some dt ∧ pyLe thr dt = true) ∧
    (∀ thr : PyDT, Rb.accept_candidate (some thr) thr = true) := by
  refine ⟨?_, ?_, ?_, ?_⟩
  · intro d thr
    cases d with
    | none => simp [Bankinform.accept_candidate]
    | some dt => simp [Bankinform.accept_candidate]
  · intro thr
    simp [Bankinform.accept_candidate, pyLe]
  · intro d thr
    cases d with
    | none => simp [Rb.accept_candidate]
    | some dt => simp [Rb.accept_candidate]
  · intro thr
    simp [Rb.accept_candidate, pyLe]

theorem clean_some_ne_empty {s c : String}
    (h : Bankinform.clean_date_text s = some c) : s ≠ "" := by
  intro hs
  rw [hs] at h
  simp [Bankinform.clean_date_text] at h

/-- C4 counterexample: a purely numeric dotted date is parsed by the
bankinform.py dispatcher through its numeric strategy, while the
plusworld.py dispatcher raises (its clean step compiles a corrupted
character class); no crawl source runs a numeric strategy directly after
the absolute Russian-month strategy. -/
theorem plusworld_numeric_never_used :
    Plusworld.parse_date_text ⟨2025, 10, 12, 0⟩ "15.03.2025" = PyRes.exc ∧
    Bankinform.parse_date_text ⟨2025, 10, 12, 0⟩ "15.03.2025" =
      some ⟨2025, 3, 15, 0⟩ := by
  decide

/-- C4 amended: the bankinform.py dispatcher tries the Russian-month, the
relative and the numeric strategies in that order and returns the first
success; the plusworld.py dispatcher chains only Russian-month and
relative (no numeric strategy), and in this snapshot its clean step raises
on every non-empty input, so the dispatch never reaches a strategy. -/
theorem dispatcher_order_amended :
    (∀ (now : PyDT) (s c : String) (d : PyDT),
        Bankinform.clean_date_text s = some c →
        Bankinform.parse_russian_date c = some d →
        Bankinform.parse_date_text now s = some d) ∧
    (∀ (now : PyDT) (s c : String) (d : PyDT),
        Bankinform.clean_date_text s = some c →
        Bankinform.parse_russian_date c = none →
        Bankinform.parse_relative_date now c = some d →
        Bankinform.parse_date_text now s = some d) ∧
    (∀ (now : PyDT) (s c : String),
        Bankinform.clean_date_text s = some c →
        Bankinform.parse_russian_date c = none →
        Bankinform.parse_relative_date now c = none →
        Bankinform.parse_date_text now s = Bankinform.parse_standard_date c) ∧
    (∀ (now : PyDT) (s : String), Bankinform.clean_date_text s = none →
        Bankinform.parse_date_text now s = none) ∧
    (∀ (now : PyDT) (s : String), s ≠ "" →
        Plusworld.parse_date_text now s = PyRes.exc) := by
  refine ⟨?_, ?_, ?_, ?_, ?_⟩
  · intro now s c d hclean hrus
    have hs := clean_some_ne_empty hclean
    unfold Bankinform.parse_date_text
    rw [if_neg hs]
    simp only [hclean, hrus]
  · intro now s c d hclean hrus hrel
    have hs := clean_some_ne_empty hclean
    unfold Bankinform.parse_date_text
    rw [if_neg hs]
    simp only [hclean, hrus, hrel]
  · intro now s c hclean hrus hrel
    have hs := clean_some_ne_empty hclean
    unfold Bankinform.parse_date_text
    rw [if_neg hs]
    simp only [hclean, hrus, hrel]
  · intro now s hclean
    unfold Bankinform.parse_date_text
    by_cases hs : s = ""
    · rw [if_pos hs]
    · rw [if_neg hs]
      simp only [hclean]
  · intro now s hs
    unfold Plusworld.parse_date_text Plusworld.clean_date_text
    rw [if_neg hs, if_neg hs]

/-- Witness for C4: on a slash-formatted string the Russian and relative
strategies fail, and the dispatcher result is exactly the numeric
strategy's result. -/
theorem dispatcher_order_amended_witness :
    Bankinform.parse_date_text ⟨2025, 10, 12, 0⟩ "15/03/2025" =
      Bankinform.parse_standard_date "15/03/2025" :=
  dispatcher_order_amended.2.2.1 ⟨2025, 10, 12, 0⟩ "15/03/2025" "15/03/2025"
    (by decide) (by decide) (by decide)

/-- C9 counterexample: the mckinseyy.py and rb.py items do not carry the
six specified fields (mckinseyy.py omits search_term, article_date and
scraped_at; rb.py omits scraped_at). -/
theorem record_fields_counterexample :
    (mckinseyItem "t" "u" "d").map Prod.fst ≠ specRecordFields ∧
    (rbItem "t" "u" "q" "d" none).map Prod.fst ≠ specRecordFields := by
  decide

/-- C9 amended: the six-field record shape holds for bankinform.py and
plusworld.py; rb.py emits the same fields without scraped_at; bankcnews.py
additionally omits article_date; mckinseyy.py emits only title, url and
description.  Wherever the article_date field exists it is None exactly
for an unknown date and otherwise the isoformat serialization. -/
theorem record_fields_amended :
    (∀ (t u d : String) (dt : Option PyDT) (now : PyDT),
        (bankinformItem t u d dt now).map Prod.fst = specRecordFields) ∧
    (∀ (t u q d : String) (dt : Option PyDT) (now : PyDT),
        (plusworldItem t u q d dt now).map Prod.fst = specRecordFields) ∧
    (∀ (t u q d : String) (dt : Option PyDT),
        (rbItem t u q d dt).map Prod.fst =
          ["title", "url", "search_term", "description", "article_date"]) ∧
    (∀ t u q d : String, (bankcnewsItem t u q d).map Prod.fst =
        ["title", "url", "search_term", "description"]) ∧
    (∀ t u d : String, (mckinseyItem t u d).map Prod.fst =
        ["title", "url", "description"]) ∧
    (∀ dt : Option PyDT, articleDateField dt = PyVal.none ↔ dt = none) ∧
    (∀ d : PyDT, articleDateField (some d) = PyVal.str (pyIsoformat d)) := by
  refine ⟨fun t u d dt now => rfl, fun t u q d dt now => rfl,
    fun t u q d dt => rfl, fun t u q d => rfl, fun t u d => rfl, ?_,
    fun d => rfl⟩
  intro dt
  cases dt with
  | none => simp [articleDateField]
  | some d => simp [articleDateField]

/-!
Lemmas about the sanitization steps.
-/

theorem mem_collapseWsAux : ∀ (l : List Char) (b : Bool) (c : Char),
    c ∈ collapseWsAux b l → c = ' ' ∨ (c ∈ l ∧ isPyWs c = false) := by
  intro l
  induction l with
  | nil => intro b c h; simp [collapseWsAux] at h
  | cons a t ih =>
      intro b c h
      rw [collapseWsAux] at h
      by_cases ha : isPyWs a = true
      · rw [if_pos ha] at h
        cases b with
        | true =>
            rw [if_pos rfl] at h
            rcases ih true c h with h1 | ⟨h1, h2⟩
            · exact Or.inl h1
            · exact Or.inr ⟨by simp [h1], h2⟩
        | false =>
            rw [if_neg (by simp)] at h
            rcases List.mem_cons.mp h with h1 | h1
            · exact Or.inl h1
            · rcases ih true c h1 with h2 | ⟨h2, h3⟩
              · exact Or.inl h2
              · exact Or.inr ⟨by simp [h2], h3⟩
      · rw [if_neg ha] at h
        rcases List.mem_cons.mp h with h1 | h1
        · subst h1
          exact Or.inr ⟨by simp, by simpa using ha⟩
        · rcases ih false c h1 with h2 | ⟨h2, h3⟩
          · exact Or.inl h2
          · exact Or.inr ⟨by simp [h2], h3⟩

theorem collapse_head_not_ws : ∀ (l : List Char) (c : Char),
    (collapseWsAux true l).head? = some c → isPyWs c = false := by
  intro l
  induction l with
  | nil => intro c h; simp [collapseWsAux] at h
  | cons a t ih =>
      intro c h
      rw [collapseWsAux] at h
      by_cases ha : isPyWs a = true
      · rw [if_pos ha, if_pos rfl] at h
        exact ih c h
      · rw [if_neg ha] at h
        simp only [List.head?_cons, Option.some.injEq] at h
        rw [← h]
        simpa using ha

theorem collapse_no_double_space : ∀ (l : List Char) (b : Bool),
    containsSub [' ', ' '] (collapseWsAux b l) = false := by
  intro l
  induction l with
  | nil => intro b; rfl
  | cons a t ih =>
      intro b
      rw [collapseWsAux]
      by_cases ha : isPyWs a = true
      · rw [if_pos ha]
        cases b with
        | true => rw [if_pos rfl]; exact ih true
        | false =>
            rw [if_neg (by simp)]
            rw [containsSub]
            have hpre : ([' ', ' ']).isPrefixOf (' ' :: collapseWsAux true t) =
                false := by
              cases hX : collapseWsAux true t with
              | nil => rfl
              | cons c r =>
                  have hc := collapse_head_not_ws t c (by rw [hX]; rfl)
                  have hcs : ' ' ≠ c := by
                    intro h2
                    rw [← h2] at hc
                    exact absurd hc (by decide)
                  simp [List.isPrefixOf, hcs]
            rw [hpre]
            simp [ih true]
      · rw [if_neg ha]
        rw [containsSub]
        have hpre : ([' ', ' ']).isPrefixOf (a :: collapseWsAux false t) =
            false := by
          simp only [List.isPrefixOf, Bool.and_eq_false_iff, beq_eq_false_iff_ne]
          left
          intro h2
          rw [← h2] at ha
          exact ha (by decide)
        rw [hpre]
        simp [ih false]

theorem stripIcons_of_no_icons {s : List Char}
    (h : ∀ c ∈ s, isIconCh c = false) : stripIcons s = s := by
  unfold stripIcons
  apply List.filter_eq_self.mpr
  intro a ha
  simp [h a ha]

theorem mem_pyStrip {s : List Char} {c : Char} (h : c ∈ pyStrip s) : c ∈ s := by
  unfold pyStrip at h
  rw [List.mem_reverse] at h
  have h2 := (List.dropWhile_sublist isPyWs).subset h
  rw [List.mem_reverse] at h2
  exact (List.dropWhile_sublist isPyWs).subset h2

theorem sanitizeText_cons_space (s : List Char) :
    Bankinform.sanitizeText (' ' :: s) = Bankinform.sanitizeText s := by
  unfold Bankinform.sanitizeText pyStrip
  rw [List.dropWhile_cons, if_pos (by decide)]

/-- C7 counterexample: on input starting with an icon glyph and a space the
sanitization step of clean_date_text returns a string with a leading space,
because the source strips whitespace first and removes icons afterwards,
so the output is not trimmed. -/
theorem sanitize_not_trimmed_counterexample :
    Bankinform.sanitize_step "⏰ 5 мая 2020" = some " 5 мая 2020" ∧
    pyStrip " 5 мая 2020".data ≠ " 5 мая 2020".data := by
  decide

/-- C7 amended: the sanitization step deletes all icon glyphs, collapses
every whitespace run to a single ASCII space, and trims the raw input
before the icon removal (so a leading space on the input itself is
consumed, but a space uncovered by deleting an edge icon survives as one
space); it returns absent exactly for the empty input and never rejects a
non-empty string. -/
theorem sanitizer_amended :
    (∀ (s : String) (c : Char), c ∈ Bankinform.sanitizeText s.data →
        isIconCh c = false ∧ (isPyWs c = true → c = ' ')) ∧
    (∀ s : List Char,
        containsSub [' ', ' '] (Bankinform.sanitizeText s) = false) ∧
    (∀ s : List Char, (∀ c ∈ s, isIconCh c = false) →
        Bankinform.sanitizeText s = collapseWs (pyStrip s)) ∧
    (∀ s : List Char,
        Bankinform.sanitizeText (' ' :: s) = Bankinform.sanitizeText s) ∧
    (∀ s : String, Bankinform.sanitize_step s = none ↔ s = "") := by
  refine ⟨?_, ?_, ?_, sanitizeText_cons_space, ?_⟩
  · intro s c h
    rcases mem_collapseWsAux _ false c h with h1 | ⟨h1, h2⟩
    · subst h1
      exact ⟨by decide, fun _ => rfl⟩
    · refine ⟨?_, fun hw => absurd hw (by simp [h2])⟩
      have h3 := List.mem_filter.mp h1
      simpa using h3.2
  · intro s
    exact collapse_no_double_space _ false
  · intro s h
    unfold Bankinform.sanitizeText
    rw [stripIcons_of_no_icons (fun c hc => h c (mem_pyStrip hc))]
  · intro s
    unfold Bankinform.sanitize_step
    by_cases hs : s = ""
    · simp [hs]
    · simp [hs]

/-- Witness for C7: a concrete character of a sanitized string is neither
an icon nor non-space whitespace, and on an icon-free input the
sanitization is the trim followed by whitespace collapsing. -/
theorem sanitizer_amended_witness :
    (isIconCh '5' = false ∧ (isPyWs '5' = true → '5' = ' ')) ∧
    Bankinform.sanitizeText " 5   мая".data = collapseWs (pyStrip " 5   мая".data) :=
  ⟨sanitizer_amended.1 " 5 мая" '5' (by decide),
   sanitizer_amended.2.2.1 " 5   мая".data (by decide)⟩

/-- C10: a cleaned string whose only date-like content is a slash-format
date is accepted by the validator of bankinform.py clean_date_text (the
slash shape is among its patterns), yet the Russian-month, relative and
numeric strategies all fail on it, so the dispatcher returns no date. -/
theorem slash_validates_never_parses :
    ∀ s : String, s ≠ "" →
      Bankinform.sanitizeText s.data = s.data →
      (reSearch slashPat s.data).isSome = true →
      reSearch rusTriplePat s.data = none →
      reSearch dotPat s.data = none →
      reSearch dashPat s.data = none →
      containsSub "день".data s.data = false →
      containsSub "дня".data s.data = false →
      containsSub "дней".data s.data = false →
      containsSub "час".data s.data = false →
      containsSub "часа".data s.data = false →
      containsSub "часов".data s.data = false →
      containsSub "минут".data s.data = false →
      containsSub "недел".data s.data = false →
      Bankinform.clean_date_text s = some s ∧
      ∀ now : PyDT, Bankinform.parse_date_text now s = none := by
  intro s hs hfix hslash hrus hdot hdash hc1 hc2 hc3 hc4 hc5 hc6 hc7 hc8
  have hclean : Bankinform.clean_date_text s = some s := by
    unfold Bankinform.clean_date_text
    rw [if_neg hs, hfix]
    have hlook : Bankinform.looksLikeDate s.data = true := by
      unfold Bankinform.looksLikeDate
      simp [hslash]
    rw [if_pos hlook, mk_data]
  have hrusp : Bankinform.parse_russian_date s = none := by
    unfold Bankinform.parse_russian_date Bankinform.russianBody
    rw [hrus]
  have hstd : Bankinform.parse_standard_date s = none := by
    unfold Bankinform.parse_standard_date Bankinform.standardBody
    rw [hdot, hdash]
  have hrel : ∀ now : PyDT, Bankinform.parse_relative_date now s = none := by
    intro now
    unfold Bankinform.parse_relative_date Bankinform.relativeBody
    cases hfn : firstNumRun s.data with
    | none => rfl
    | some ns => simp [hc1, hc2, hc3, hc4, hc5, hc6, hc7, hc8]
  refine ⟨hclean, fun now => ?_⟩
  unfold Bankinform.parse_date_text
  rw [if_neg hs]
  simp only [hclean, hrusp, hrel now, hstd]

/-- Witness for C10: the slash date 15 March 2025 is validated but parses
to no date. -/
theorem slash_validates_never_parses_witness :
    Bankinform.clean_date_text "15/03/2025" = some "15/03/2025" ∧
    Bankinform.parse_date_text ⟨2025, 10, 12, 0⟩ "15/03/2025" = none :=
  ⟨(slash_validates_never_parses "15/03/2025" (by decide) (by decide)
      (by decide) (by decide) (by decide) (by decide) (by decide) (by decide)
      (by decide) (by decide) (by decide) (by decide) (by decide) (by decide)).1,
   (slash_validates_never_parses "15/03/2025" (by decide) (by decide)
      (by decide) (by decide) (by decide) (by decide) (by decide) (by decide)
      (by decide) (by decide) (by decide) (by decide) (by decide) (by decide)).2
     ⟨2025, 10, 12, 0⟩⟩

/-!
Declarative semantics of the matcher: a search succeeds exactly when the
string contains a substring that decomposes into runs conforming to the
pattern elements.
-/

/-- Conformance of one consumed run to one pattern element. -/
def ElemOk : RElem → List Char → Prop
  | .cls p lo hi, r =>
      lo ≤ r.length ∧ (∀ hb, hi = some hb → r.length ≤ hb) ∧ ∀ c ∈ r, p c = true
  | .alt ws ic, r => ∃ w ∈ ws, prefixMatch ic w r = true ∧ r.length = w.length

/-- Conformance of a run list to a pattern. -/
def RunsOk : List RElem → List (List Char) → Prop
  | [], [] => True
  | e :: es, r :: rs => ElemOk e r ∧ RunsOk es rs
  | _, _ => False

/-- The pattern occurs somewhere in the string. -/
def Occurs (es : List RElem) (s : List Char) : Prop :=
  ∃ pre runs post, s = pre ++ (runs.flatten ++ post) ∧ RunsOk es runs

theorem okRun_spec {p : Char → Bool} {k : Nat} {s : List Char}
    (h : okRun p k s = true) :
    (s.take k).length = k ∧ ∀ c ∈ s.take k, p c = true := by
  unfold okRun at h
  simp only [Bool.and_eq_true, decide_eq_true_eq, List.all_eq_true] at h
  refine ⟨?_, h.2⟩
  rw [List.length_take]
  omega

theorem mem_countList {p : Char → Bool} {lo : Nat} {hi : Option Nat}
    {s : List Char} {k : Nat} (h : k ∈ countList p lo hi s) :
    lo ≤ k ∧ ∀ hb, hi = some hb → k ≤ hb := by
  cases hi with
  | some hb =>
      unfold countList at h
      by_cases hm : hb < lo
      · rw [if_pos hm] at h
        simp at h
      · rw [if_neg hm] at h
        simp only [List.mem_map, List.mem_range] at h
        obtain ⟨i, hi2, rfl⟩ := h
        refine ⟨by omega, ?_⟩
        intro hb2 he
        simp at he
        omega
  | none =>
      unfold countList at h
      by_cases hm : (s.takeWhile p).length < lo
      · rw [if_pos hm] at h
        simp at h
      · rw [if_neg hm] at h
        simp only [List.mem_map, List.mem_range] at h
        obtain ⟨i, hi2, rfl⟩ := h
        exact ⟨by omega, fun hb2 he => by simp at he⟩

theorem countList_mem {p : Char → Bool} {lo : Nat} {hi : Option Nat}
    {r t : List Char}
    (h1 : lo ≤ r.length) (h2 : ∀ hb, hi = some hb → r.length ≤ hb)
    (h3 : ∀ c ∈ r, p c = true) :
    r.length ∈ countList p lo hi (r ++ t) := by
  cases hi with
  | some hb =>
      have hle := h2 hb rfl
      simp only [countList]
      rw [if_neg (by omega)]
      simp only [List.mem_map, List.mem_range]
      exact ⟨hb - r.length, by omega, by omega⟩
  | none =>
      have hlen : r.length ≤ ((r ++ t).takeWhile p).length := by
        rw [takeWhile_append_all h3]
        simp
      simp only [countList]
      rw [if_neg (by omega)]
      simp only [List.mem_map, List.mem_range]
      exact ⟨((r ++ t).takeWhile p).length - r.length, by omega, by omega⟩

theorem firstSomeCounts_eq_some {p : Char → Bool} {s : List Char}
    {cont : List Char → List Char → Option (List (List Char))}
    {ks : List Nat} {r : List (List Char)}
    (h : firstSomeCounts p s cont ks = some r) :
    ∃ k ∈ ks, okRun p k s = true ∧ cont (s.take k) (s.drop k) = some r := by
  induction ks with
  | nil => simp [firstSomeCounts] at h
  | cons k ks ih =>
      rw [firstSomeCounts] at h
      by_cases hk : okRun p k s = true
      · cases hc : cont (s.take k) (s.drop k) with
        | some r2 =>
            simp only [hk, if_true, hc] at h
            exact ⟨k, by simp, hk, by rw [hc, h]⟩
        | none =>
            simp only [hk, if_true, hc] at h
            obtain ⟨k2, hk2, hok2, hc2⟩ := ih h
            exact ⟨k2, by simp [hk2], hok2, hc2⟩
      · simp only [Bool.not_eq_true] at hk
        simp only [hk, if_false] at h
        obtain ⟨k2, hk2, hok2, hc2⟩ := ih h
        exact ⟨k2, by simp [hk2], hok2, hc2⟩

theorem firstSomeCounts_isSome {p : Char → Bool} {s : List Char}
    {cont : List Char → List Char → Option (List (List Char))}
    {k : Nat} {ks : List Nat}
    (hk : k ∈ ks) (hok : okRun p k s = true)
    (hc : (cont (s.take k) (s.drop k)).isSome = true) :
    (firstSomeCounts p s cont ks).isSome = true := by
  induction ks with
  | nil => simp at hk
  | cons k2 ks ih =>
      rw [firstSomeCounts]
      rcases List.mem_cons.mp hk with h | h
      · subst h
        cases hcc : cont (s.take k) (s.drop k) with
        | none => rw [hcc] at hc; simp at hc
        | some r => simp [hok, hcc]
      · cases hif : (if okRun p k2 s then cont (s.take k2) (s.drop k2) else none) with
        | some r => simp [hif]
        | none => simp [hif]; exact ih h

theorem firstAlt_eq_some {ic : Bool} {s : List Char}
    {cont : List Char → List Char → Option (List (List Char))}
    {ws : List (List Char)} {r : List (List Char)}
    (h : firstAlt ic s cont ws = some r) :
    ∃ w ∈ ws, prefixMatch ic w s = true ∧
      cont (s.take w.length) (s.drop w.length) = some r := by
  induction ws with
  | nil => simp [firstAlt] at h
  | cons w ws ih =>
      rw [firstAlt] at h
      by_cases hm : prefixMatch ic w s = true
      · cases hc : cont (s.take w.length) (s.drop w.length) with
        | some r2 =>
            simp only [hm, if_true, hc] at h
            exact ⟨w, by simp, hm, by rw [hc, h]⟩
        | none =>
            simp only [hm, if_true, hc] at h
            obtain ⟨w2, hw2, hm2, hc2⟩ := ih h
            exact ⟨w2, by simp [hw2], hm2, hc2⟩
      · simp only [Bool.not_eq_true] at hm
        simp only [hm, if_false] at h
        obtain ⟨w2, hw2, hm2, hc2⟩ := ih h
        exact ⟨w2, by simp [hw2], hm2, hc2⟩

theorem firstAlt_isSome {ic : Bool} {s : List Char}
    {cont : List Char → List Char → Option (List (List Char))}
    {w : List Char} {ws : List (List Char)}
    (hw : w ∈ ws) (hm : prefixMatch ic w s = true)
    (hc : (cont (s.take w.length) (s.drop w.length)).isSome = true) :
    (firstAlt ic s cont ws).isSome = true := by
  induction ws with
  | nil => simp at hw
  | cons w2 ws ih =>
      rw [firstAlt]
      rcases List.mem_cons.mp hw with h | h
      · subst h
        cases hcc : cont (s.take w.length) (s.drop w.length) with
        | none => rw [hcc] at hc; simp at hc
        | some r => simp [hm, hcc]
      · cases hif : (if prefixMatch ic w2 s then
            cont (s.take w2.length) (s.drop w2.length) else none) with
        | some r => simp [hif]
        | none => simp [hif]; exact ih h

theorem matchElems_sound : ∀ (es : List RElem) (s : List Char)
    (runs : List (List Char)), matchElems es s = some runs →
    ∃ rest, s = runs.flatten ++ rest ∧ RunsOk es runs := by
  intro es
  induction es with
  | nil =>
      intro s runs h
      simp only [matchElems, Option.some.injEq] at h
      subst h
      exact ⟨s, by simp, trivial⟩
  | cons e es ih =>
      intro s runs h
      cases e with
      | cls p lo hi =>
          rw [matchElems] at h
          obtain ⟨k, hkmem, hok, hc⟩ := firstSomeCounts_eq_some h
          cases hm : matchElems es (s.drop k) with
          | none => rw [hm] at hc; simp at hc
          | some rs =>
              rw [hm] at hc
              simp at hc
              obtain ⟨rest, hrest, hrok⟩ := ih (s.drop k) rs hm
              obtain ⟨hlen, hall⟩ := okRun_spec hok
              obtain ⟨hlo, hhi⟩ := mem_countList hkmem
              refine ⟨rest, ?_, ?_⟩
              · rw [← hc]
                simp only [List.flatten_cons, List.append_assoc]
                rw [← hrest, List.take_append_drop]
              · rw [← hc]
                refine ⟨⟨by omega, fun hb he => by rw [hlen]; exact hhi hb he, hall⟩, hrok⟩
      | alt ws ic =>
          rw [matchElems] at h
          obtain ⟨w, hwmem, hpm, hc⟩ := firstAlt_eq_some h
          cases hm : matchElems es (s.drop w.length) with
          | none => rw [hm] at hc; simp at hc
          | some rs =>
              rw [hm] at hc
              simp at hc
              obtain ⟨rest, hrest, hrok⟩ := ih (s.drop w.length) rs hm
              have hwl : w.length ≤ s.length := by
                have := hpm
                unfold prefixMatch at this
                simp only [Bool.and_eq_true, decide_eq_true_eq] at this
                exact this.1
              refine ⟨rest, ?_, ?_⟩
              · rw [← hc]
                simp only [List.flatten_cons, List.append_assoc]
                rw [← hrest, List.take_append_drop]
              · rw [← hc]
                refine ⟨⟨w, hwmem, ?_, ?_⟩, hrok⟩
                · unfold prefixMatch at hpm ⊢
                  simp only [Bool.and_eq_true, decide_eq_true_eq] at hpm ⊢
                  have htl : (s.take w.length).length = w.length := by
                    rw [List.length_take]; omega
                  refine ⟨by omega, ?_⟩
                  rw [List.take_of_length_le (le_of_eq htl)]
                  exact hpm.2
                · rw [List.length_take]; omega
      
theorem matchElems_complete : ∀ (es : List RElem) (runs : List (List Char))
    (rest : List Char), RunsOk es runs →
    (matchElems es (runs.flatten ++ rest)).isSome = true := by
  intro es
  induction es with
  | nil =>
      intro runs rest hro
      cases runs with
      | nil => simp [matchElems]
      | cons r rs => simp [RunsOk] at hro
  | cons e es ih =>
      intro runs rest hro
      cases runs with
      | nil => simp [RunsOk] at hro
      | cons r rs =>
          obtain ⟨hel, hrok⟩ := hro
          have hjoin : ((r :: rs).flatten ++ rest) = r ++ (rs.flatten ++ rest) := by
            simp [List.flatten_cons]
          cases e with
          | cls p lo hi =>
              obtain ⟨h1, h2, h3⟩ := hel
              rw [matchElems, hjoin]
              have htk : (r ++ (rs.flatten ++ rest)).take r.length = r :=
                List.take_left r _
              have hdr : (r ++ (rs.flatten ++ rest)).drop r.length =
                  rs.flatten ++ rest := List.drop_left r _
              refine firstSomeCounts_isSome (countList_mem h1 h2 h3)
                (okRun_append h3) ?_
              rw [htk, hdr]
              have := ih rs rest hrok
              cases hms : matchElems es (rs.flatten ++ rest) with
              | none => rw [hms] at this; simp at this
              | some rr => simp
          | alt ws ic =>
              obtain ⟨w, hw, hpm, hlen⟩ := hel
              rw [matchElems, hjoin]
              have hr : r.length = w.length := hlen
              have htk : (r ++ (rs.flatten ++ rest)).take w.length = r := by
                rw [← hr]; exact List.take_left r _
              have hdr : (r ++ (rs.flatten ++ rest)).drop w.length =
                  rs.flatten ++ rest := by
                rw [← hr]; exact List.drop_left r _
              have hpm2 : prefixMatch ic w (r ++ (rs.flatten ++ rest)) = true := by
                unfold prefixMatch at hpm ⊢
                simp only [Bool.and_eq_true, decide_eq_true_eq] at hpm ⊢
                refine ⟨by simp [List.length_append]; omega, ?_⟩
                rw [htk]
                rw [List.take_of_length_le (by omega)] at hpm
                exact hpm.2
              refine firstAlt_isSome hw hpm2 ?_
              rw [htk, hdr]
              have := ih rs rest hrok
              cases hms : matchElems es (rs.flatten ++ rest) with
              | none => rw [hms] at this; simp at this
              | some rr => simp

theorem reSearch_sound : ∀ (s : List Char) (es : List RElem),
    (reSearch es s).isSome = true → Occurs es s := by
  intro s
  induction s with
  | nil =>
      intro es h
      rw [reSearch] at h
      cases hm : matchElems es [] with
      | none => rw [hm] at h; simp at h
      | some runs =>
          obtain ⟨rest, hrest, hrok⟩ := matchElems_sound es [] runs hm
          exact ⟨[], runs, rest, by simpa using hrest, hrok⟩
  | cons c t ih =>
      intro es h
      rw [reSearch] at h
      cases hm : matchElems es (c :: t) with
      | some runs =>
          obtain ⟨rest, hrest, hrok⟩ := matchElems_sound es (c :: t) runs hm
          exact ⟨[], runs, rest, by simpa using hrest, hrok⟩
      | none =>
          rw [hm] at h
          obtain ⟨pre, runs, post, hs, hrok⟩ := ih es h
          exact ⟨c :: pre, runs, post, by simp [hs], hrok⟩

theorem reSearch_complete : ∀ (pre : List Char) (es : List RElem)
    (runs : List (List Char)) (post : List Char), RunsOk es runs →
    (reSearch es (pre ++ (runs.flatten ++ post))).isSome = true := by
  intro pre
  induction pre with
  | nil =>
      intro es runs post hrok
      have h := matchElems_complete es runs post hrok
      rw [List.nil_append]
      cases hX : (runs.flatten ++ post) with
      | nil =>
          rw [hX] at h
          rw [reSearch]
          exact h
      | cons c t =>
          rw [hX] at h
          rw [reSearch]
          cases hm : matchElems es (c :: t) with
          | some r => simp
          | none => rw [hm] at h; simp at h
  | cons c pre ih =>
      intro es runs post hrok
      rw [List.cons_append, reSearch]
      cases hm : matchElems es (c :: (pre ++ (runs.flatten ++ post))) with
      | some r => simp
      | none =>
          simp only [hm]
          exact ih es runs post hrok

theorem reSearch_isSome_iff (es : List RElem) (s : List Char) :
    (reSearch es s).isSome = true ↔ Occurs es s := by
  constructor
  · exact reSearch_sound s es
  · rintro ⟨pre, runs, post, rfl, hrok⟩
    exact reSearch_complete pre es runs post hrok

theorem runsOk_five {e1 e2 e3 e4 e5 : RElem} {runs : List (List Char)}
    (h : RunsOk [e1, e2, e3, e4, e5] runs) :
    ∃ r1 r2 r3 r4 r5, runs = [r1, r2, r3, r4, r5] ∧
      ElemOk e1 r1 ∧ ElemOk e2 r2 ∧ ElemOk e3 r3 ∧ ElemOk e4 r4 ∧
      ElemOk e5 r5 := by
  cases runs with
  | nil => exact absurd h (by simp [RunsOk])
  | cons r1 rs1 =>
  cases rs1 with
  | nil => exact absurd h.2 (by simp [RunsOk])
  | cons r2 rs2 =>
  cases rs2 with
  | nil => exact absurd h.2.2 (by simp [RunsOk])
  | cons r3 rs3 =>
  cases rs3 with
  | nil => exact absurd h.2.2.2 (by simp [RunsOk])
  | cons r4 rs4 =>
  cases rs4 with
  | nil => exact absurd h.2.2.2.2 (by simp [RunsOk])
  | cons r5 rs5 =>
  cases rs5 with
  | nil => exact ⟨r1, r2, r3, r4, r5, rfl, h.1, h.2.1, h.2.2.1, h.2.2.2.1,
      h.2.2.2.2.1⟩
  | cons r6 rs6 => exact absurd h.2.2.2.2.2 (by simp [RunsOk])

theorem runsOk_three {e1 e2 e3 : RElem} {runs : List (List Char)}
    (h : RunsOk [e1, e2, e3] runs) :
    ∃ r1 r2 r3, runs = [r1, r2, r3] ∧
      ElemOk e1 r1 ∧ ElemOk e2 r2 ∧ ElemOk e3 r3 := by
  cases runs with
  | nil => exact absurd h (by simp [RunsOk])
  | cons r1 rs1 =>
  cases rs1 with
  | nil => exact absurd h.2 (by simp [RunsOk])
  | cons r2 rs2 =>
  cases rs2 with
  | nil => exact absurd h.2.2 (by simp [RunsOk])
  | cons r3 rs3 =>
  cases rs3 with
  | nil => exact ⟨r1, r2, r3, rfl, h.1, h.2.1, h.2.2.1⟩
  | cons r4 rs4 => exact absurd h.2.2.2 (by simp [RunsOk])

theorem elemOk_lit {x : Char} {r : List Char}
    (h : ElemOk (.cls (fun c => c = x) 1 (some 1)) r) : r = [x] := by
  obtain ⟨h1, h2, h3⟩ := h
  have h4 := h2 1 rfl
  cases r with
  | nil => simp at h1
  | cons a t =>
      cases t with
      | nil =>
          have := h3 a (by simp)
          simp at this
          simp [this]
      | cons b t2 => simp at h4

theorem elemOk_lit_intro (x : Char) :
    ElemOk (.cls (fun c => c = x) 1 (some 1)) [x] := by
  refine ⟨by simp, ?_, ?_⟩
  · intro hb he
    simp at he
    simp [← he]
  · intro c hc
    simp at hc
    simp [hc]

theorem elemOk_alt_iff {ws : List (List Char)} {r : List Char} :
    ElemOk (.alt ws true) r ↔ ∃ w ∈ ws, r.map pyLowerChar = w := by
  constructor
  · rintro ⟨w, hw, hpm, hlen⟩
    refine ⟨w, hw, ?_⟩
    unfold prefixMatch at hpm
    simp only [Bool.and_eq_true, decide_eq_true_eq, if_true] at hpm
    rw [List.take_of_length_le (by omega)] at hpm
    exact hpm.2
  · rintro ⟨w, hw, hmap⟩
    have hlen : r.length = w.length := by rw [← hmap]; simp
    refine ⟨w, hw, ?_, hlen⟩
    unfold prefixMatch
    simp only [Bool.and_eq_true, decide_eq_true_eq, if_true]
    exact ⟨by omega, by rw [List.take_of_length_le (by omega)]; exact hmap⟩

/-!
The six date shapes described by the specification for the validator,
stated as explicit decompositions of the cleaned string, and their
equivalence with the corresponding pattern searches.
-/

/-- Shape of a day, a Cyrillic month name and a four-digit year, separated
by whitespace (case-insensitive month letters). -/
def ShapeDayMonthYear (s : List Char) : Prop :=
  ∃ pre d w1 mon w2 y post,
    s = pre ++ (d ++ (w1 ++ (mon ++ (w2 ++ (y ++ post))))) ∧
    1 ≤ d.length ∧ d.length ≤ 2 ∧ (∀ c ∈ d, isDigitCh c = true) ∧
    1 ≤ w1.length ∧ (∀ c ∈ w1, isPyWs c = true) ∧
    1 ≤ mon.length ∧ (∀ c ∈ mon, isCyrLowerIC c = true) ∧
    1 ≤ w2.length ∧ (∀ c ∈ w2, isPyWs c = true) ∧
    y.length = 4 ∧ (∀ c ∈ y, isDigitCh c = true)

/-- Shape of day, month and four-digit year joined by a fixed separator
character (dot or slash). -/
def ShapeSeparated (sep : Char) (s : List Char) : Prop :=
  ∃ pre a b y post,
    s = pre ++ (a ++ (sep :: (b ++ (sep :: (y ++ post))))) ∧
    1 ≤ a.length ∧ a.length ≤ 2 ∧ (∀ c ∈ a, isDigitCh c = true) ∧
    1 ≤ b.length ∧ b.length ≤ 2 ∧ (∀ c ∈ b, isDigitCh c = true) ∧
    y.length = 4 ∧ (∀ c ∈ y, isDigitCh c = true)

/-- Shape of a four-digit year, month and day joined by dashes. -/
def ShapeIsoDashed (s : List Char) : Prop :=
  ∃ pre y a b post,
    s = pre ++ (y ++ ('-' :: (a ++ ('-' :: (b ++ post))))) ∧
    y.length = 4 ∧ (∀ c ∈ y, isDigitCh c = true) ∧
    1 ≤ a.length ∧ a.length ≤ 2 ∧ (∀ c ∈ a, isDigitCh c = true) ∧
    1 ≤ b.length ∧ b.length ≤ 2 ∧ (∀ c ∈ b, isDigitCh c = true)

/-- Shape of a day and a Cyrillic month name with the year omitted. -/
def ShapeDayMonth (s : List Char) : Prop :=
  ∃ pre d w1 mon post,
    s = pre ++ (d ++ (w1 ++ (mon ++ post))) ∧
    1 ≤ d.length ∧ d.length ≤ 2 ∧ (∀ c ∈ d, isDigitCh c = true) ∧
    1 ≤ w1.length ∧ (∀ c ∈ w1, isPyWs c = true) ∧
    1 ≤ mon.length ∧ (∀ c ∈ mon, isCyrLowerIC c = true)

/-- Shape of an integer and a recognized relative-unit stem: the slice
lowercases to one of the six stems. -/
def ShapeRelative (s : List Char) : Prop :=
  ∃ pre n w stem post,
    s = pre ++ (n ++ (w ++ (stem ++ post))) ∧
    1 ≤ n.length ∧ (∀ c ∈ n, isDigitCh c = true) ∧
    1 ≤ w.length ∧ (∀ c ∈ w, isPyWs c = true) ∧
    ∃ u ∈ relStems, stem.map pyLowerChar = u

theorem occurs_rusTripleIC_iff (s : List Char) :
    Occurs rusTriplePatIC s ↔ ShapeDayMonthYear s := by
  constructor
  · rintro ⟨pre, runs, post, rfl, hrok⟩
    obtain ⟨r1, r2, r3, r4, r5, rfl, h1, h2, h3, h4, h5⟩ := runsOk_five hrok
    obtain ⟨h1a, h1b, h1c⟩ := h1
    obtain ⟨h2a, _, h2c⟩ := h2
    obtain ⟨h3a, _, h3c⟩ := h3
    obtain ⟨h4a, _, h4c⟩ := h4
    obtain ⟨h5a, h5b, h5c⟩ := h5
    refine ⟨pre, r1, r2, r3, r4, r5, post,
      by simp [List.flatten_cons, List.append_assoc], h1a, h1b 2 rfl, h1c,
      h2a, h2c, h3a, h3c, h4a, h4c, ?_, h5c⟩
    have := h5b 4 rfl
    omega
  · rintro ⟨pre, d, w1, mon, w2, y, post, rfl, hd1, hd2, hd3, hw1a, hw1b,
      hm1, hm2, hw2a, hw2b, hy1, hy2⟩
    refine ⟨pre, [d, w1, mon, w2, y], post,
      by simp [List.flatten_cons, List.append_assoc], ?_⟩
    refine ⟨⟨hd1, ?_, hd3⟩, ⟨hw1a, ?_, hw1b⟩, ⟨hm1, ?_, hm2⟩,
      ⟨hw2a, ?_, hw2b⟩, ⟨by omega, ?_, hy2⟩, trivial⟩
    · intro hb he; simp at he; omega
    · intro hb he; simp at he
    · intro hb he; simp at he
    · intro hb he; simp at he
    · intro hb he; simp at he; omega

theorem occurs_sepTriple_iff (sep : Char) (s : List Char) :
    Occurs [RElem.cls isDigitCh 1 (some 2),
      RElem.cls (fun c => c = sep) 1 (some 1),
      RElem.cls isDigitCh 1 (some 2),
      RElem.cls (fun c => c = sep) 1 (some 1),
      RElem.cls isDigitCh 4 (some 4)] s ↔ ShapeSeparated sep s := by
  constructor
  · rintro ⟨pre, runs, post, rfl, hrok⟩
    obtain ⟨r1, r2, r3, r4, r5, rfl, h1, h2, h3, h4, h5⟩ := runsOk_five hrok
    obtain ⟨h1a, h1b, h1c⟩ := h1
    obtain ⟨h3a, h3b, h3c⟩ := h3
    obtain ⟨h5a, h5b, h5c⟩ := h5
    rw [elemOk_lit h2, elemOk_lit h4]
    refine ⟨pre, r1, r3, r5, post,
      by simp [List.flatten_cons, List.append_assoc], h1a, h1b 2 rfl, h1c,
      h3a, h3b 2 rfl, h3c, ?_, h5c⟩
    have := h5b 4 rfl
    omega
  · rintro ⟨pre, a, b, y, post, rfl, ha1, ha2, ha3, hb1, hb2, hb3, hy1, hy2⟩
    refine ⟨pre, [a, [sep], b, [sep], y], post,
      by simp [List.flatten_cons, List.append_assoc], ?_⟩
    refine ⟨⟨ha1, ?_, ha3⟩, elemOk_lit_intro sep, ⟨hb1, ?_, hb3⟩,
      elemOk_lit_intro sep, ⟨by omega, ?_, hy2⟩, trivial⟩
    · intro hb2 he; simp at he; omega
    · intro hb2 he; simp at he; omega
    · intro hb2 he; simp at he; omega

theorem occurs_dashed_iff (s : List Char) :
    Occurs dashPat s ↔ ShapeIsoDashed s := by
  constructor
  · rintro ⟨pre, runs, post, rfl, hrok⟩
    obtain ⟨r1, r2, r3, r4, r5, rfl, h1, h2, h3, h4, h5⟩ := runsOk_five hrok
    obtain ⟨h1a, h1b, h1c⟩ := h1
    obtain ⟨h3a, h3b, h3c⟩ := h3
    obtain ⟨h5a, h5b, h5c⟩ := h5
    rw [elemOk_lit h2, elemOk_lit h4]
    refine ⟨pre, r1, r3, r5, post,
      by simp [List.flatten_cons, List.append_assoc], ?_, h1c,
      h3a, h3b 2 rfl, h3c, h5a, h5b 2 rfl, h5c⟩
    have := h1b 4 rfl
    omega
  · rintro ⟨pre, y, a, b, post, rfl, hy1, hy2, ha1, ha2, ha3, hb1, hb2, hb3⟩
    refine ⟨pre, [y, ['-'], a, ['-'], b], post,
      by simp [List.flatten_cons, List.append_assoc], ?_⟩
    refine ⟨⟨by omega, ?_, hy2⟩, elemOk_lit_intro '-', ⟨ha1, ?_, ha3⟩,
      elemOk_lit_intro '-', ⟨hb1, ?_, hb3⟩, trivial⟩
    · intro hb2 he; simp at he; omega
    · intro hb2 he; simp at he; omega
    · intro hb2 he; simp at he; omega

theorem occurs_rusPairIC_iff (s : List Char) :
    Occurs rusPairPatIC s ↔ ShapeDayMonth s := by
  constructor
  · rintro ⟨pre, runs, post, rfl, hrok⟩
    obtain ⟨r1, r2, r3, rfl, h1, h2, h3⟩ := runsOk_three hrok
    obtain ⟨h1a, h1b, h1c⟩ := h1
    obtain ⟨h2a, _, h2c⟩ := h2
    obtain ⟨h3a, _, h3c⟩ := h3
    exact ⟨pre, r1, r2, r3, post,
      by simp [List.flatten_cons, List.append_assoc], h1a, h1b 2 rfl, h1c,
      h2a, h2c, h3a, h3c⟩
  · rintro ⟨pre, d, w1, mon, post, rfl, hd1, hd2, hd3, hw1a, hw1b, hm1, hm2⟩
    refine ⟨pre, [d, w1, mon], post,
      by simp [List.flatten_cons, List.append_assoc], ?_⟩
    refine ⟨⟨hd1, ?_, hd3⟩, ⟨hw1a, ?_, hw1b⟩, ⟨hm1, ?_, hm2⟩, trivial⟩
    · intro hb he; simp at he; omega
    · intro hb he; simp at he
    · intro hb he; simp at he

theorem occurs_relIC_iff (s : List Char) :
    Occurs relPatIC s ↔ ShapeRelative s := by
  constructor
  · rintro ⟨pre, runs, post, rfl, hrok⟩
    obtain ⟨r1, r2, r3, rfl, h1, h2, h3⟩ := runsOk_three hrok
    obtain ⟨h1a, _, h1c⟩ := h1
    obtain ⟨h2a, _, h2c⟩ := h2
    obtain ⟨u, hu, hmap⟩ := elemOk_alt_iff.mp h3
    exact ⟨pre, r1, r2, r3, post,
      by simp [List.flatten_cons, List.append_assoc], h1a, h1c, h2a, h2c,
      u, hu, hmap⟩
  · rintro ⟨pre, n, w, stem, post, rfl, hn1, hn2, hw1, hw2, u, hu, hmap⟩
    refine ⟨pre, [n, w, stem], post,
      by simp [List.flatten_cons, List.append_assoc], ?_⟩
    refine ⟨⟨hn1, ?_, hn2⟩, ⟨hw1, ?_, hw2⟩, elemOk_alt_iff.mpr ⟨u, hu, hmap⟩,
      trivial⟩
    · intro hb he; simp at he
    · intro hb he; simp at he

theorem occurs_dot_iff (s : List Char) :
    Occurs dotPat s ↔ ShapeSeparated '.' s :=
  occurs_sepTriple_iff '.' s

theorem occurs_slash_iff (s : List Char) :
    Occurs slashPat s ↔ ShapeSeparated '/' s :=
  occurs_sepTriple_iff '/' s

/-- C6 counterexample: the dash-shaped string 2025-10-05 matches the
specification's fourth shape, but plusworld.py clean_date_text raises
re.error on it instead of accepting it (its first pattern's corrupted
character class fails to compile), so its validator does not implement the
claimed six-shape acceptance. -/
theorem plusworld_validator_counterexample :
    ShapeIsoDashed "2025-10-05".data ∧
    Plusworld.clean_date_text "2025-10-05" = PyRes.exc := by
  constructor
  · rw [← occurs_dashed_iff, ← reSearch_isSome_iff]
    decide
  · rfl

/-- C6 amended: for bankinform.py the validator accepts a nonempty cleaned
string exactly when one of the six recognized shapes occurs in it,
evaluated case-insensitively, and a rejected string makes parse_date_text
return no date.  (The plusworld.py variant differs: its pattern set has no
dashed shape and adds English stems, and in this snapshot its first
pattern raises, see the counterexample.) -/
theorem validator_six_shapes :
    (∀ s : String, s ≠ "" → Bankinform.sanitizeText s.data = s.data →
        (Bankinform.clean_date_text s = some s ↔
          (ShapeDayMonthYear s.data ∨ ShapeSeparated '.' s.data ∨
           ShapeSeparated '/' s.data ∨ ShapeIsoDashed s.data ∨
           ShapeDayMonth s.data ∨ ShapeRelative s.data))) ∧
    (∀ (now : PyDT) (s : String), Bankinform.clean_date_text s = none →
        Bankinform.parse_date_text now s = none) := by
  constructor
  · intro s hs hfix
    have hiff : Bankinform.looksLikeDate s.data = true ↔
        (ShapeDayMonthYear s.data ∨ ShapeSeparated '.' s.data ∨
         ShapeSeparated '/' s.data ∨ ShapeIsoDashed s.data ∨
         ShapeDayMonth s.data ∨ ShapeRelative s.data) := by
      unfold Bankinform.looksLikeDate
      simp only [Bool.or_eq_true]
      rw [reSearch_isSome_iff, reSearch_isSome_iff, reSearch_isSome_iff,
        reSearch_isSome_iff, reSearch_isSome_iff, reSearch_isSome_iff,
        occurs_rusTripleIC_iff, occurs_dot_iff, occurs_slash_iff,
        occurs_dashed_iff, occurs_rusPairIC_iff, occurs_relIC_iff]
      tauto
    constructor
    · intro hacc
      unfold Bankinform.clean_date_text at hacc
      rw [if_neg hs, hfix] at hacc
      by_cases hl : Bankinform.looksLikeDate s.data = true
      · exact hiff.mp hl
      · rw [if_neg hl] at hacc
        simp at hacc
    · intro hshape
      unfold Bankinform.clean_date_text
      rw [if_neg hs, hfix, if_pos (hiff.mpr hshape), mk_data]
  · intro now s hclean
    unfold Bankinform.parse_date_text
    by_cases hs : s = ""
    · rw [if_pos hs]
    · rw [if_neg hs]
      simp only [hclean]

/-- Witness for C6: the acceptance of the dotted date 15.03.2025 is
equivalent to one of the six shapes occurring in it. -/
theorem validator_six_shapes_witness :
    Bankinform.clean_date_text "15.03.2025" = some "15.03.2025" ↔
      (ShapeDayMonthYear "15.03.2025".data ∨
       ShapeSeparated '.' "15.03.2025".data ∨
       ShapeSeparated '/' "15.03.2025".data ∨
       ShapeIsoDashed "15.03.2025".data ∨
       ShapeDayMonth "15.03.2025".data ∨ ShapeRelative "15.03.2025".data) :=
  validator_six_shapes.1 "15.03.2025" (by decide) (by decide)
